import Mathlib

/-!
Verification development for the Livy word-frequency analysis pipeline
(`src/text_extractor.py`, `src/analyzer.py`).

Characters are modelled as natural-number Unicode codepoints (`ℕ`), texts
and tokens as `List ℕ`, Python floats as exact rationals (`ℚ`), and the
SQLite index as lists of typed rows.  Each definition is a direct shallow
embedding of the corresponding Python function; the doc comment of every
definition names its source.
-/

/-! ## Tokenizer / normalizer (`text_extractor.py`) -/

/-- `DIACRITIC_MAP` from `text_extractor.py`, in source order.  Keys and
replacements are Unicode codepoints:
ā257 ē275 ī299 ō333 ū363, Ā256 Ē274 Ī298 Ō332 Ū362,
à224 è232 ì236 ò242 ù249, À192 È200 Ì204 Ò210 Ù217,
ë235 ï239 ü252, Ë203 Ï207 Ü220, æ230→"ae" œ339→"oe" Æ198→"ae" Œ338→"oe";
a=97 e=101 i=105 o=111 u=117. -/
def DIACRITIC_MAP : List (ℕ × List ℕ) :=
  [(257, [97]), (275, [101]), (299, [105]), (333, [111]), (363, [117]),
   (256, [97]), (274, [101]), (298, [105]), (332, [111]), (362, [117]),
   (224, [97]), (232, [101]), (236, [105]), (242, [111]), (249, [117]),
   (192, [97]), (200, [101]), (204, [105]), (210, [111]), (217, [117]),
   (235, [101]), (239, [105]), (252, [117]),
   (203, [101]), (207, [105]), (220, [117]),
   (230, [97, 101]), (339, [111, 101]),
   (198, [97, 101]), (338, [111, 101])]

/-- Test for the 30 keys of `DIACRITIC_MAP`, written as an arithmetic
disjunction so that `omega` can reason about it. -/
def isDiacriticKey (c : ℕ) : Bool :=
  decide (c = 257 ∨ c = 275 ∨ c = 299 ∨ c = 333 ∨ c = 363 ∨
          c = 256 ∨ c = 274 ∨ c = 298 ∨ c = 332 ∨ c = 362 ∨
          c = 224 ∨ c = 232 ∨ c = 236 ∨ c = 242 ∨ c = 249 ∨
          c = 192 ∨ c = 200 ∨ c = 204 ∨ c = 210 ∨ c = 217 ∨
          c = 235 ∨ c = 239 ∨ c = 252 ∨
          c = 203 ∨ c = 207 ∨ c = 220 ∨
          c = 230 ∨ c = 339 ∨ c = 198 ∨ c = 338)

/-- Character class of `LATIN_WORD_PATTERN`
(`\b[a-zA-ZāēīōūĀĒĪŌŪàèìòùÀÈÌÒÙëïüËÏÜæœÆŒ]+\b`): ASCII letters plus
exactly the keys of `DIACRITIC_MAP`. -/
def isClassChar (c : ℕ) : Bool :=
  decide ((65 ≤ c ∧ c ≤ 90) ∨ (97 ≤ c ∧ c ≤ 122)) || isDiacriticKey c

/-- Word character for the regex `\b` boundary (Python `\w`): ASCII
alphanumerics, underscore, and the non-ASCII letters this module ranges
over (the diacritics of `LATIN_WORD_PATTERN`).  Other Unicode letters do
not occur in the corpus handled by the module and are not modelled. -/
def isWordChar (c : ℕ) : Bool :=
  decide ((48 ≤ c ∧ c ≤ 57) ∨ c = 95) || isClassChar c

/-- Python `str.lower`, restricted to the characters handled by this
module: ASCII `A`–`Z` shift by 32, the uppercase diacritics of
`DIACRITIC_MAP` map to their lowercase forms, everything else is fixed. -/
def lowerChar (c : ℕ) : ℕ :=
  if 65 ≤ c ∧ c ≤ 90 then c + 32
  else if c = 256 then 257
  else if c = 274 then 275
  else if c = 298 then 299
  else if c = 332 then 333
  else if c = 362 then 363
  else if c = 192 then 224
  else if c = 200 then 232
  else if c = 204 then 236
  else if c = 210 then 242
  else if c = 217 then 249
  else if c = 203 then 235
  else if c = 207 then 239
  else if c = 220 then 252
  else if c = 198 then 230
  else if c = 338 then 339
  else c

/-- Python `str.lower` on a whole string. -/
def lowerStr (s : List ℕ) : List ℕ := s.map lowerChar

/-- Python `str.replace(key, repl)` for a single-character key. -/
def replaceAll (k : ℕ) (r : List ℕ) (s : List ℕ) : List ℕ :=
  s.flatMap (fun c => if c = k then r else [c])

/-- `normalize_diacritics` from `text_extractor.py`: apply
`text.replace(diacritic, replacement)` for every entry of
`DIACRITIC_MAP` in source order. -/
def normalize_diacritics (s : List ℕ) : List ℕ :=
  DIACRITIC_MAP.foldl (fun t p => replaceAll p.1 p.2 t) s

/-- Scanner for `LATIN_WORD_PATTERN.findall`.  A match of
`\b[class]+\b` is a maximal run of class characters whose left
neighbour is absent or a non-word character and whose right neighbour is
absent or a non-word character (runs failing a `\b` are skipped whole,
since every inner position of a run fails the start boundary).
`prevWord` records whether the character before the current position is
a word character.  Every step consumes at least one character, so `fuel`
only bounds the structural recursion; `latinFindall` supplies enough to
scan the whole string. -/
def findallAux : ℕ → Bool → List ℕ → List (List ℕ)
  | 0, _, _ => []
  | _ + 1, _, [] => []
  | fuel + 1, prevWord, c :: rest =>
    if isClassChar c && !prevWord then
      match rest.dropWhile isClassChar with
      | [] => [c :: rest.takeWhile isClassChar]
      | d :: rest2 =>
        if isWordChar d then findallAux fuel true (d :: rest2)
        else (c :: rest.takeWhile isClassChar) :: findallAux fuel true (d :: rest2)
    else findallAux fuel (isWordChar c) rest

/-- `LATIN_WORD_PATTERN.findall(text)`. -/
def latinFindall (s : List ℕ) : List (List ℕ) := findallAux s.length false s

/-- `tokenize` from `text_extractor.py`. -/
def tokenize (text : List ℕ) (normalize : Bool) : List (List ℕ) :=
  let text1 := if normalize then lowerStr (normalize_diacritics text) else text
  let words := latinFindall text1
  if normalize then words.map lowerStr else words

/-! ## Snippet extractor (`analyzer.py`, `extract_snippets`) -/

/-- Whether position `i` of `s` holds a word character (`false` past the
end). -/
def wordAt (s : List ℕ) (i : ℕ) : Bool :=
  (s[i]?.map isWordChar).getD false

/-- Whether the character just before position `i` is a word character
(`false` at the start of the string). -/
def wordBefore (s : List ℕ) : ℕ → Bool
  | 0 => false
  | i + 1 => wordAt s i

/-- Regex `\b` at position `i`: exactly one of the two neighbouring
positions holds a word character. -/
def boundaryAt (s : List ℕ) (i : ℕ) : Bool :=
  wordBefore s i != wordAt s i

/-- The slice `s[a:b]` of Python. -/
def sliceOf (s : List ℕ) (a b : ℕ) : List ℕ :=
  (s.drop a).take (b - a)

/-- Whether the pattern `\b re.escape(word) \b` with `re.IGNORECASE`
matches `s` at position `i`: the slice of the word's length equals the
word up to case folding, with a `\b` boundary on both sides. -/
def matchesAt (s w : List ℕ) (i : ℕ) : Bool :=
  decide ((sliceOf s i (i + w.length)).map lowerChar = w.map lowerChar)
    && boundaryAt s i && boundaryAt s (i + w.length)

/-- Scanner for `pattern.finditer(text)`: left-to-right, non-overlapping;
after a match the scan resumes past it (one position further for a
zero-width match).  `fuel` only bounds the recursion; `finditer` supplies
enough fuel to reach the end of the string. -/
def finditerAux (s w : List ℕ) : ℕ → ℕ → List ℕ
  | 0, _ => []
  | fuel + 1, i =>
    if s.length < i + w.length then []
    else if matchesAt s w i then i :: finditerAux s w fuel (i + max w.length 1)
    else finditerAux s w fuel (i + 1)

/-- All match start positions of `\b re.escape(word) \b` (IGNORECASE) in
`s`, in order. -/
def finditer (s w : List ℕ) : List ℕ :=
  finditerAux s w (s.length + 1) 0

/-- One snippet: the dict `{"context": ..., "position": ...}` built by
`extract_snippets`. -/
structure Snip where
  context : List ℕ
  position : ℕ
deriving DecidableEq

/-- The three-character ellipsis marker `"..."` (`.` = 46). -/
def ELLIPSIS : List ℕ := [46, 46, 46]

/-- The snippet built for the match at position `i`:
`start = max(0, i - context_chars)`, `end = min(len(text), match.end()
+ context_chars)`, the slice `text[start:end]`, with `"..."` prepended
when `start > 0` and appended when `end < len(text)`. -/
def mkSnippet (text w : List ℕ) (cc i : ℕ) : Snip :=
  let start := i - cc
  let e := min text.length (i + w.length + cc)
  let ctx0 := sliceOf text start e
  let ctx1 := if 0 < start then ELLIPSIS ++ ctx0 else ctx0
  let ctx2 := if e < text.length then ctx1 ++ ELLIPSIS else ctx1
  ⟨ctx2, i⟩

/-- The accumulation loop of `extract_snippets`: append a snippet for
each match, and break as soon as `len(snippets) >= max_snippets` after
an append. -/
def snippetsLoop (text w : List ℕ) (cc maxS : ℕ) : List ℕ → List Snip → List Snip
  | [], acc => acc
  | i :: rest, acc =>
    let acc2 := acc ++ [mkSnippet text w cc i]
    if maxS ≤ acc2.length then acc2 else snippetsLoop text w cc maxS rest acc2

/-- `extract_snippets` from `analyzer.py`. -/
def extract_snippets (text w : List ℕ) (cc maxS : ℕ) : List Snip :=
  snippetsLoop text w cc maxS (finditer text w) []

/-! ## Aggregation pipeline (`analyzer.py`, `run_analysis`) -/

/-- One entry of `get_book_metadata()`:
`{book_id, title, sequence_index}` (the URL path plays no role in the
analysis). -/
structure BookMeta where
  book_id : String
  title : String
  sequence_index : ℤ
deriving DecidableEq

/-- Input of a pipeline run: the book metadata list and the extracted
text files; `text b = none` models the `FileNotFoundError` of
`load_text`, which makes `run_analysis` skip the book. -/
structure PipelineInput where
  meta : List BookMeta
  text : String → Option (List ℕ)

/-- The books that `run_analysis` actually processes: metadata entries
in order, with their loaded text, skipping books whose text file is
missing. -/
def loadedBooks (inp : PipelineInput) : List (BookMeta × List ℕ) :=
  inp.meta.filterMap (fun m => (inp.text m.book_id).map (fun t => (m, t)))

/-- One step of `collections.Counter`: increment the count of `w`,
keeping first-insertion order, or append `(w, 1)`. -/
def addOne : List (List ℕ × ℕ) → List ℕ → List (List ℕ × ℕ)
  | [], w => [(w, 1)]
  | (k, c) :: rest, w =>
    if k = w then (k, c + 1) :: rest else (k, c) :: addOne rest w

/-- `collections.Counter(words)` as an insertion-ordered association
list. -/
def counter (ws : List (List ℕ)) : List (List ℕ × ℕ) := ws.foldl addOne []

/-- `calculate_frequencies` from `analyzer.py`. -/
def calculate_frequencies (text : List ℕ) : List (List ℕ × ℕ) :=
  counter (tokenize text true)

/-- `sum(d.values())` for an association list with `ℕ` values. -/
def sumCounts {α : Type} (l : List (α × ℕ)) : ℕ := (l.map Prod.snd).sum

/-- `calculate_relative_frequency` from `analyzer.py`: `0.0` when
`total_words == 0`, otherwise `count / total_words * 10000`. -/
def calculate_relative_frequency (count total_words : ℕ) : ℚ :=
  if total_words = 0 then 0 else ((count : ℚ) / total_words) * 10000

/-- A row of the `books` table. -/
structure BookRow where
  book_id : String
  title : String
  sequence_index : ℤ
  total_words : ℕ
  unique_words : ℕ
deriving DecidableEq

/-- A row of the `word_frequencies` table. -/
structure FreqRow where
  word : List ℕ
  book_id : String
  count : ℕ
  relative_frequency : ℚ
deriving DecidableEq

/-- A row of the `word_stats` table. -/
structure StatRow where
  word : List ℕ
  total_count : ℕ
  book_count : ℕ
  mean_position : ℚ
deriving DecidableEq

/-- A row of the `snippets` table (the autoincrement id is the list
position). -/
structure SnippetRow where
  word : List ℕ
  book_id : String
  context : List ℕ
  position_in_book : ℕ
deriving DecidableEq

/-- The SQLite index: the four tables, rows in insertion order. -/
structure DB where
  books : List BookRow
  word_frequencies : List FreqRow
  word_stats : List StatRow
  snippets : List SnippetRow
deriving DecidableEq

/-- The `books` row inserted for one processed book. -/
def bookRowOf (m : BookMeta) (t : List ℕ) : BookRow :=
  ⟨m.book_id, m.title, m.sequence_index, sumCounts (calculate_frequencies t),
    (calculate_frequencies t).length⟩

/-- All rows of the `books` table, in processing order. -/
def booksRows (inp : PipelineInput) : List BookRow :=
  (loadedBooks inp).map (fun p => bookRowOf p.1 p.2)

/-- The `book_totals` dict of `run_analysis` (`book_id -> total_words`);
a Python dict keeps the last binding of a key, hence the lookup on the
reversed insertion list. -/
def book_totals (inp : PipelineInput) (bid : String) : Option ℕ :=
  ((loadedBooks inp).reverse.find? (fun p => decide (p.1.book_id = bid))).map
    (fun p => sumCounts (calculate_frequencies p.2))

/-- The `book_id_to_metadata` dict of `run_analysis` (last binding of a
key wins). -/
def book_id_to_metadata (inp : PipelineInput) (bid : String) : Option BookMeta :=
  inp.meta.reverse.find? (fun m => decide (m.book_id = bid))

/-- `all_frequencies[word][book_id] = count` on the inner dict:
overwrite an existing binding of `book_id` or append a new one. -/
def setCount : List (String × ℕ) → String → ℕ → List (String × ℕ)
  | [], bid, c => [(bid, c)]
  | (b, c0) :: rest, bid, c =>
    if b = bid then (b, c) :: rest else (b, c0) :: setCount rest bid c

/-- `all_frequencies[word][book_id] = count` on the outer dict
(creating the inner dict when `word` is new). -/
def addWordCount : List (List ℕ × List (String × ℕ)) → List ℕ → String → ℕ →
    List (List ℕ × List (String × ℕ))
  | [], w, bid, c => [(w, [(bid, c)])]
  | (w0, bcs) :: rest, w, bid, c =>
    if w0 = w then (w0, setCount bcs bid c) :: rest
    else (w0, bcs) :: addWordCount rest w bid c

/-- The aggregation loop body of `run_analysis` for one book: record
every `(word, count)` of its frequency Counter. -/
def addBookFreqs (acc : List (List ℕ × List (String × ℕ))) (bid : String)
    (freqs : List (List ℕ × ℕ)) : List (List ℕ × List (String × ℕ)) :=
  freqs.foldl (fun a p => addWordCount a p.1 bid p.2) acc

/-- The `all_frequencies` dict (`word -> {book_id: count}`) after all
books are processed. -/
def all_frequencies (inp : PipelineInput) : List (List ℕ × List (String × ℕ)) :=
  (loadedBooks inp).foldl (fun a p => addBookFreqs a p.1.book_id (calculate_frequencies p.2)) []

/-- The `weighted_sum` loop of `run_analysis`: `Σ sequence_index ×
count` over the word's book counts, skipping book ids absent from
`book_id_to_metadata`. -/
def weightedSeqSum (inp : PipelineInput) (bcs : List (String × ℕ)) : ℤ :=
  bcs.foldl (fun s p =>
    match book_id_to_metadata inp p.1 with
    | some m => s + m.sequence_index * p.2
    | none => s) 0

/-- The `word_stats` row computed for one word:
`mean_position = weighted_sum / total_count if total_count > 0 else 0`. -/
def statRowOf (inp : PipelineInput) (w : List ℕ) (bcs : List (String × ℕ)) : StatRow :=
  let total := sumCounts bcs
  let mean : ℚ := if 0 < total then (weightedSeqSum inp bcs : ℚ) / total else 0
  ⟨w, total, bcs.length, mean⟩

/-- All rows of the `word_stats` table, in `all_frequencies` order. -/
def word_statsRows (inp : PipelineInput) : List StatRow :=
  (all_frequencies inp).map (fun p => statRowOf inp p.1 p.2)

/-- The `word_frequencies` rows inserted for one word: one row per book
count whose `book_id` is in `book_totals`, with
`calculate_relative_frequency(count, book_totals[book_id])`. -/
def freqRowsOf (inp : PipelineInput) (w : List ℕ) (bcs : List (String × ℕ)) : List FreqRow :=
  bcs.filterMap (fun p =>
    (book_totals inp p.1).map (fun tw => ⟨w, p.1, p.2, calculate_relative_frequency p.2 tw⟩))

/-- All rows of the `word_frequencies` table, in insertion order. -/
def word_frequenciesRows (inp : PipelineInput) : List FreqRow :=
  (all_frequencies inp).flatMap (fun p => freqRowsOf inp p.1 p.2)

/-- The snippet rows stored for one common word: for every loaded book
(in `book_texts` order), `extract_snippets(text, word,
max_snippets=max_snippets_per_book)` with the default context window of
50 characters. -/
def snippetRowsFor (inp : PipelineInput) (maxS : ℕ) (w : List ℕ) : List SnippetRow :=
  (loadedBooks inp).flatMap (fun p =>
    (extract_snippets p.2 w 50 maxS).map (fun sn => ⟨w, p.1.book_id, sn.context, sn.position⟩))

/-- All rows of the `snippets` table: words of `word_stats` with
`total_count >= min_word_freq`, in order. -/
def snippetsRows (inp : PipelineInput) (minFreq maxS : ℕ) : List SnippetRow :=
  ((word_statsRows inp).filter (fun st => decide (minFreq ≤ st.total_count))).flatMap
    (fun st => snippetRowsFor inp maxS st.word)

/-- `run_analysis` from `analyzer.py`: the database contents produced by
one full pipeline run over `inp` with the given `min_word_freq` and
`max_snippets_per_book`. -/
def run_analysis (inp : PipelineInput) (minFreq maxS : ℕ) : DB :=
  ⟨booksRows inp, word_frequenciesRows inp, word_statsRows inp, snippetsRows inp minFreq maxS⟩

/-! ## Query facade (`analyzer.py`, read functions) -/

/-- One result row of `get_word_frequencies`. -/
structure FreqResult where
  book_id : String
  title : String
  sequence_index : ℤ
  count : ℕ
  relative_frequency : ℚ
deriving DecidableEq

/-- The `ORDER BY b.sequence_index` relation on `books` rows. -/
def seqLeB (a b : BookRow) : Prop := a.sequence_index ≤ b.sequence_index

instance : DecidableRel seqLeB := fun a b => Int.decLe a.sequence_index b.sequence_index

instance : IsTotal BookRow seqLeB := ⟨fun a b => Int.le_total a.sequence_index b.sequence_index⟩

instance : IsTrans BookRow seqLeB := ⟨fun _ _ _ h h2 => Int.le_trans h h2⟩

/-- `get_word_frequencies` from `analyzer.py`: the `LEFT JOIN` of
`books` with the `word_frequencies` rows of the lowercased query word,
ordered by `sequence_index`, with `COALESCE` filling `count = 0` and
`relative_frequency = 0` for books without a matching row. -/
def get_word_frequencies (db : DB) (w : List ℕ) : List FreqResult :=
  (db.books.insertionSort seqLeB).flatMap (fun b =>
    match (db.word_frequencies.filter (fun fr =>
        decide (b.book_id = fr.book_id) && decide (fr.word = lowerStr w))) with
    | [] => [⟨b.book_id, b.title, b.sequence_index, 0, 0⟩]
    | fr :: frs => (fr :: frs).map (fun fr2 =>
        ⟨b.book_id, b.title, b.sequence_index, fr2.count, fr2.relative_frequency⟩))

/-- SQLite default case folding: `LIKE` compares ASCII letters
case-insensitively and all other characters literally. -/
def asciiFold (c : ℕ) : ℕ := if 65 ≤ c ∧ c ≤ 90 then c + 32 else c

/-- SQLite `LIKE` matching (no `ESCAPE` clause): `%` (37) matches any
sequence, `_` (95) matches any single character, any other pattern
character matches one character up to ASCII case folding.  Every step
shortens the pattern or the subject, so `fuel` only bounds the
structural recursion; `likeMatch` supplies enough for any run. -/
def likeMatchAux : ℕ → List ℕ → List ℕ → Bool
  | 0, _, _ => false
  | _ + 1, [], [] => true
  | _ + 1, [], _ :: _ => false
  | fuel + 1, c :: p, s =>
    if c = 37 then
      likeMatchAux fuel p s ||
        (match s with
         | [] => false
         | _ :: s2 => likeMatchAux fuel (c :: p) s2)
    else if c = 95 then
      (match s with
       | [] => false
       | _ :: s2 => likeMatchAux fuel p s2)
    else
      (match s with
       | [] => false
       | d :: s2 => decide (asciiFold c = asciiFold d) && likeMatchAux fuel p s2)

/-- SQLite `word LIKE pattern` for this schema. -/
def likeMatch (p s : List ℕ) : Bool := likeMatchAux (p.length + s.length + 1) p s

/-- The `ORDER BY total_count DESC` relation on `word_stats` rows. -/
def statGeB (a b : StatRow) : Prop := b.total_count ≤ a.total_count

instance : DecidableRel statGeB := fun a b => Nat.decLe b.total_count a.total_count

instance : IsTotal StatRow statGeB := ⟨fun a b => (Nat.le_total b.total_count a.total_count).imp id id⟩

instance : IsTrans StatRow statGeB := ⟨fun _ _ _ h h2 => Nat.le_trans h2 h⟩

/-- `search_words` from `analyzer.py`: rows of `word_stats` whose word
matches the `LIKE` pattern `prefix.lower() + "%"`, ordered by
`total_count DESC`, capped at `limit`. -/
def search_words (db : DB) (pfx : List ℕ) (limit : ℕ) : List (List ℕ) :=
  (((db.word_stats.filter (fun st => likeMatch (lowerStr pfx ++ [37]) st.word)).insertionSort
      statGeB).map (fun st => st.word)).take limit

/-! ## Index rebuild visibility (`analyzer.py`, `create_database` and the
final `conn.commit()` of `run_analysis`) -/

/-- The database file: committed contents (what concurrent readers
observe) and the pending contents of the currently open transaction. -/
structure IndexFileState where
  committed : DB
  pending : DB
deriving DecidableEq

/-- The store on disk: `none` models the absence of the database file. -/
structure StoreState where
  file : Option IndexFileState
deriving DecidableEq

/-- A database with all four tables empty (a freshly created schema). -/
def emptyDB : DB := ⟨[], [], [], []⟩

/-- Storage effects of a pipeline run, in the order `run_analysis`
performs them. -/
inductive StoreOp
  | unlinkIfExists
  | createSchema
  | insertAll (db : DB)
  | commitAll
deriving DecidableEq

/-- Effect of one storage operation.  `create_database` unlinks an
existing file and creates a fresh one whose (empty) schema it commits;
the inserts of `run_analysis` stay pending inside the connection's
transaction; the final `conn.commit()` publishes them. -/
def applyOp (s : StoreState) : StoreOp → StoreState
  | .unlinkIfExists => ⟨none⟩
  | .createSchema => ⟨some ⟨emptyDB, emptyDB⟩⟩
  | .insertAll db =>
    match s.file with
    | some f => ⟨some ⟨f.committed, db⟩⟩
    | none => s
  | .commitAll =>
    match s.file with
    | some f => ⟨some ⟨f.pending, f.pending⟩⟩
    | none => s

/-- The storage operations of one `run_analysis(inp, minFreq, maxS)`
call, in program order. -/
def rebuildOps (inp : PipelineInput) (minFreq maxS : ℕ) : List StoreOp :=
  [.unlinkIfExists, .createSchema, .insertAll (run_analysis inp minFreq maxS), .commitAll]

/-- Store state after the first `k` storage operations of a rebuild
starting from `prior`; a run that fails partway leaves exactly this
state. -/
def rebuildAfter (prior : StoreState) (inp : PipelineInput) (minFreq maxS k : ℕ) : StoreState :=
  ((rebuildOps inp minFreq maxS).take k).foldl applyOp prior

/-- What a reader querying the store observes: the committed contents of
the database file, or `none` when no file exists. -/
def visibleIndex (s : StoreState) : Option DB := s.file.map (fun f => f.committed)

/-! ## Character-level lemmas -/

theorem lowerChar_of_lower {c : ℕ} (h1 : 97 ≤ c) (h2 : c ≤ 122) : lowerChar c = c := by
  interval_cases c <;> decide

theorem mem_key_of_isDiacriticKey {c : ℕ} (h : isDiacriticKey c = true) :
    ∃ p ∈ DIACRITIC_MAP, p.1 = c := by
  simp only [isDiacriticKey, decide_eq_true_eq] at h
  have h2 : c ∈ DIACRITIC_MAP.map Prod.fst := by
    simp only [DIACRITIC_MAP, List.map_cons, List.map_nil, List.mem_cons, List.not_mem_nil,
      or_false]
    omega
  obtain ⟨p, hp, hpc⟩ := List.mem_map.mp h2
  exact ⟨p, hp, hpc⟩

theorem repl_chars_lower : ∀ p ∈ DIACRITIC_MAP, ∀ c ∈ p.2, 97 ≤ c ∧ c ≤ 122 := by decide

theorem keys_ge : ∀ p ∈ DIACRITIC_MAP, 192 ≤ p.1 := by decide

theorem lowerChar_spec (c : ℕ) :
    (65 ≤ c ∧ c ≤ 90 ∧ lowerChar c = c + 32) ∨ isDiacriticKey c = true ∨
      (lowerChar c = c ∧ ¬(65 ≤ c ∧ c ≤ 90)) := by
  by_cases h1 : 65 ≤ c ∧ c ≤ 90
  · refine Or.inl ⟨h1.1, h1.2, ?_⟩
    unfold lowerChar
    rw [if_pos h1]
  · by_cases hk : isDiacriticKey c = true
    · exact Or.inr (Or.inl hk)
    · refine Or.inr (Or.inr ⟨?_, h1⟩)
      rw [Bool.not_eq_true] at hk
      simp only [isDiacriticKey, decide_eq_false_iff_not] at hk
      push_neg at hk
      obtain ⟨n1, n2, n3, n4, n5, n6, n7, n8, n9, n10, n11, n12, n13, n14, n15,
        n16, n17, n18, n19, n20, n21, n22, n23, n24, n25, n26, n27, n28, n29, n30⟩ := hk
      unfold lowerChar
      rw [if_neg h1, if_neg n6, if_neg n7, if_neg n8, if_neg n9, if_neg n10,
        if_neg n16, if_neg n17, if_neg n18, if_neg n19, if_neg n20,
        if_neg n24, if_neg n25, if_neg n26, if_neg n29, if_neg n30]

theorem lowerChar_class_lower {d : ℕ} (hk : isDiacriticKey d = false)
    (hcl : isClassChar (lowerChar d) = true) : 97 ≤ lowerChar d ∧ lowerChar d ≤ 122 := by
  rcases lowerChar_spec d with ⟨h1, h2, h3⟩ | hkey | ⟨h3, h1⟩
  · rw [h3]
    omega
  · simp only [hk] at hkey
    exact Bool.noConfusion hkey
  · rw [h3] at hcl ⊢
    simp only [isClassChar, Bool.or_eq_true, decide_eq_true_eq] at hcl
    rcases hcl with hcl | hcl
    · omega
    · simp only [hk] at hcl
      exact Bool.noConfusion hcl

/-! ## Lemmas about `normalize_diacritics` -/

theorem mem_replaceAll {c k : ℕ} {r s : List ℕ} (h : c ∈ replaceAll k r s) :
    (c ∈ s ∧ c ≠ k) ∨ c ∈ r := by
  unfold replaceAll at h
  rw [List.mem_flatMap] at h
  obtain ⟨d, hd, hc⟩ := h
  by_cases hdk : d = k
  · subst hdk
    rw [if_pos rfl] at hc
    exact Or.inr hc
  · rw [if_neg hdk] at hc
    simp only [List.mem_singleton] at hc
    subst hc
    exact Or.inl ⟨hd, hdk⟩

theorem mem_foldl_replace {l : List (ℕ × List ℕ)} {s : List ℕ} {c : ℕ}
    (h : c ∈ l.foldl (fun t p => replaceAll p.1 p.2 t) s) :
    (c ∈ s ∧ ∀ p ∈ l, c ≠ p.1) ∨ ∃ p ∈ l, c ∈ p.2 := by
  induction l generalizing s with
  | nil =>
    simp only [List.foldl_nil] at h
    exact Or.inl ⟨h, by intro p hp; cases hp⟩
  | cons q l ih =>
    simp only [List.foldl_cons] at h
    rcases ih h with ⟨hmem, hne⟩ | ⟨p, hp, hc⟩
    · rcases mem_replaceAll hmem with ⟨hs, hneq⟩ | hr
      · refine Or.inl ⟨hs, ?_⟩
        intro p hp
        rcases List.mem_cons.mp hp with rfl | hp2
        · exact hneq
        · exact hne p hp2
      · exact Or.inr ⟨q, List.mem_cons_self q l, hr⟩
    · exact Or.inr ⟨p, List.mem_cons_of_mem q hp, hc⟩

theorem normalize_no_key {s : List ℕ} {c : ℕ} (h : c ∈ normalize_diacritics s) :
    isDiacriticKey c = false := by
  unfold normalize_diacritics at h
  rcases mem_foldl_replace h with ⟨_, hne⟩ | ⟨p, hp, hc⟩
  · by_contra hk
    rw [Bool.not_eq_false] at hk
    obtain ⟨p, hp, hpc⟩ := mem_key_of_isDiacriticKey hk
    exact hne p hp hpc.symm
  · have h2 := repl_chars_lower p hp c hc
    simp only [isDiacriticKey, decide_eq_false_iff_not]
    omega

theorem normalized_char_lower {s : List ℕ} {c : ℕ}
    (h : c ∈ lowerStr (normalize_diacritics s)) (hcl : isClassChar c = true) :
    97 ≤ c ∧ c ≤ 122 := by
  unfold lowerStr at h
  rw [List.mem_map] at h
  obtain ⟨d, hd, rfl⟩ := h
  exact lowerChar_class_lower (normalize_no_key hd) hcl

theorem replaceAll_id {k : ℕ} {r s : List ℕ} (h : ∀ c ∈ s, c ≠ k) : replaceAll k r s = s := by
  induction s with
  | nil => rfl
  | cons a s ih =>
    unfold replaceAll at ih ⊢
    simp only [List.flatMap_cons]
    rw [if_neg (h a (List.mem_cons_self a s)), ih (fun c hc => h c (List.mem_cons_of_mem a hc))]
    rfl

theorem foldl_replace_id {l : List (ℕ × List ℕ)} {s : List ℕ}
    (h : ∀ p ∈ l, ∀ c ∈ s, c ≠ p.1) : l.foldl (fun t p => replaceAll p.1 p.2 t) s = s := by
  induction l with
  | nil => rfl
  | cons q l ih =>
    simp only [List.foldl_cons]
    rw [replaceAll_id (h q (List.mem_cons_self q l))]
    exact ih (fun p hp => h p (List.mem_cons_of_mem q hp))

theorem normalize_id {s : List ℕ} (h : ∀ c ∈ s, 97 ≤ c ∧ c ≤ 122) :
    normalize_diacritics s = s := by
  unfold normalize_diacritics
  refine foldl_replace_id ?_
  intro p hp c hc
  have h1 := keys_ge p hp
  have h2 := h c hc
  omega

theorem lowerStr_id {s : List ℕ} (h : ∀ c ∈ s, 97 ≤ c ∧ c ≤ 122) : lowerStr s = s := by
  unfold lowerStr
  induction s with
  | nil => rfl
  | cons a s ih =>
    rw [List.map_cons, lowerChar_of_lower (h a (List.mem_cons_self a s)).1
      (h a (List.mem_cons_self a s)).2, ih (fun c hc => h c (List.mem_cons_of_mem a hc))]

/-! ## Lemmas about `latinFindall` and `tokenize` -/

theorem run_tokens {c : ℕ} {rest : List ℕ} (hc : isClassChar c = true) :
    (c :: rest.takeWhile isClassChar) ≠ [] ∧
      ∀ x ∈ c :: rest.takeWhile isClassChar, isClassChar x = true ∧ x ∈ c :: rest := by
  refine ⟨List.cons_ne_nil c (rest.takeWhile isClassChar), ?_⟩
  intro x hx
  rcases List.mem_cons.mp hx with rfl | hx2
  · exact ⟨hc, List.mem_cons_self x rest⟩
  · exact ⟨List.mem_takeWhile_imp hx2,
      List.mem_cons_of_mem c ((List.takeWhile_sublist isClassChar).subset hx2)⟩

theorem findallAux_tokens :
    ∀ (fuel : ℕ) (b : Bool) (s : List ℕ), ∀ t ∈ findallAux fuel b s,
      t ≠ [] ∧ ∀ c ∈ t, isClassChar c = true ∧ c ∈ s := by
  intro fuel
  induction fuel with
  | zero =>
    intro b s t ht
    simp [findallAux] at ht
  | succ fuel ih =>
    intro b s t ht
    match s with
    | [] => simp [findallAux] at ht
    | c :: rest =>
      rw [findallAux] at ht
      by_cases hg : (isClassChar c && !b) = true
      · rw [if_pos hg] at ht
        have hc : isClassChar c = true := by
          rw [Bool.and_eq_true] at hg
          exact hg.1
        split at ht
        · simp only [List.mem_singleton] at ht
          subst ht
          exact run_tokens hc
        · rename_i d rest2 hdr
          have hsub : ∀ x ∈ d :: rest2, x ∈ c :: rest := by
            intro x hx
            exact List.mem_cons_of_mem c
              ((hdr ▸ (List.dropWhile_sublist (l := rest) isClassChar)).subset hx)
          by_cases hw : isWordChar d = true
          · rw [if_pos hw] at ht
            obtain ⟨hne, hall⟩ := ih true (d :: rest2) t ht
            exact ⟨hne, fun x hx => ⟨(hall x hx).1, hsub x (hall x hx).2⟩⟩
          · rw [if_neg hw] at ht
            rcases List.mem_cons.mp ht with rfl | ht2
            · exact run_tokens hc
            · obtain ⟨hne, hall⟩ := ih true (d :: rest2) t ht2
              exact ⟨hne, fun x hx => ⟨(hall x hx).1, hsub x (hall x hx).2⟩⟩
      · rw [if_neg hg] at ht
        obtain ⟨hne, hall⟩ := ih (isWordChar c) rest t ht
        exact ⟨hne, fun x hx => ⟨(hall x hx).1, List.mem_cons_of_mem c (hall x hx).2⟩⟩

theorem takeWhile_all {p : ℕ → Bool} {l : List ℕ} (h : ∀ c ∈ l, p c = true) :
    l.takeWhile p = l := by
  induction l with
  | nil => rfl
  | cons a l ih =>
    rw [List.takeWhile_cons, if_pos (h a (List.mem_cons_self a l)),
      ih (fun c hc => h c (List.mem_cons_of_mem a hc))]

theorem dropWhile_all {p : ℕ → Bool} {l : List ℕ} (h : ∀ c ∈ l, p c = true) :
    l.dropWhile p = [] := by
  induction l with
  | nil => rfl
  | cons a l ih =>
    rw [List.dropWhile_cons, if_pos (h a (List.mem_cons_self a l)),
      ih (fun c hc => h c (List.mem_cons_of_mem a hc))]

theorem isClassChar_of_lower {c : ℕ} (h1 : 97 ≤ c) (h2 : c ≤ 122) : isClassChar c = true := by
  simp only [isClassChar, Bool.or_eq_true, decide_eq_true_eq]
  exact Or.inl (Or.inr ⟨h1, h2⟩)

theorem findall_single {t : List ℕ} (hne : t ≠ []) (h : ∀ c ∈ t, 97 ≤ c ∧ c ≤ 122) :
    latinFindall t = [t] := by
  obtain ⟨c, rest, rfl⟩ := List.exists_cons_of_ne_nil hne
  have hclass : ∀ x ∈ rest, isClassChar x = true := by
    intro x hx
    have h2 := h x (List.mem_cons_of_mem c hx)
    exact isClassChar_of_lower h2.1 h2.2
  have hc : isClassChar c = true := by
    have h2 := h c (List.mem_cons_self c rest)
    exact isClassChar_of_lower h2.1 h2.2
  unfold latinFindall
  rw [List.length_cons, findallAux, if_pos (by simp [hc]), dropWhile_all hclass,
    takeWhile_all hclass]

theorem tokenize_tokens_aux :
    ∀ (s : List ℕ), ∀ t ∈ tokenize s true, t ≠ [] ∧ ∀ c ∈ t, 97 ≤ c ∧ c ≤ 122 := by
  intro s t ht
  have ht2 : t ∈ (latinFindall (lowerStr (normalize_diacritics s))).map lowerStr := ht
  obtain ⟨t0, ht0, rfl⟩ := List.mem_map.mp ht2
  obtain ⟨hne, hall⟩ := findallAux_tokens _ false _ t0 ht0
  have hlow : ∀ c ∈ t0, 97 ≤ c ∧ c ≤ 122 := by
    intro c hc
    exact normalized_char_lower (hall c hc).2 (hall c hc).1
  rw [lowerStr_id hlow]
  exact ⟨hne, hlow⟩

/-- C10: for every input string, every token produced by the tokenizer in
normalized mode (the pipeline's default) is a non-empty string consisting
only of ASCII lowercase letters `a`–`z` (codepoints 97–122): every
diacritic admitted by the token boundary pattern is normalized away, and
no diacritic, uppercase letter, digit, or punctuation survives into a
stored word key. -/
theorem claim_C10_normalized_tokens_ascii :
    ∀ (s : List ℕ), ∀ t ∈ tokenize s true, t ≠ [] ∧ ∀ c ∈ t, 97 ≤ c ∧ c ≤ 122 :=
  tokenize_tokens_aux

/-- Witness for C10 at a concrete input: tokenizing `"Arma, cānō"` yields
the token `"cano"`, which is non-empty ASCII lowercase. -/
theorem claim_C10_witness :
    [99, 97, 110, 111] ∈ tokenize [65, 114, 109, 97, 44, 32, 99, 257, 110, 333] true ∧
      ([99, 97, 110, 111] ≠ [] ∧ ∀ c ∈ [99, 97, 110, 111], 97 ≤ c ∧ c ≤ 122) :=
  ⟨by decide, claim_C10_normalized_tokens_ascii [65, 114, 109, 97, 44, 32, 99, 257, 110, 333]
    [99, 97, 110, 111] (by decide)⟩

/-- C9: normalization is idempotent — every token produced by the
tokenizer in normalized mode is already in normalized form, applying
diacritic normalization followed by lowercasing to it returns it
unchanged, and tokenizing the token itself reproduces exactly that token
unchanged. -/
theorem claim_C9_normalization_idempotent :
    ∀ (s : List ℕ), ∀ t ∈ tokenize s true,
      lowerStr (normalize_diacritics t) = t ∧ tokenize t true = [t] := by
  intro s t ht
  obtain ⟨hne, hlow⟩ := tokenize_tokens_aux s t ht
  have hn := normalize_id hlow
  have hl := lowerStr_id hlow
  constructor
  · rw [hn, hl]
  · show (latinFindall (lowerStr (normalize_diacritics t))).map lowerStr = [t]
    rw [hn, hl, findall_single hne hlow, List.map_singleton, hl]

/-- Witness for C9 at a concrete input: the token `"arma"` of
`"Arma, cānō"` is a fixed point of normalize-then-lowercase and
retokenizes to itself. -/
theorem claim_C9_witness :
    [97, 114, 109, 97] ∈ tokenize [65, 114, 109, 97, 44, 32, 99, 257, 110, 333] true ∧
      (lowerStr (normalize_diacritics [97, 114, 109, 97]) = [97, 114, 109, 97] ∧
        tokenize [97, 114, 109, 97] true = [[97, 114, 109, 97]]) :=
  ⟨by decide, claim_C9_normalization_idempotent [65, 114, 109, 97, 44, 32, 99, 257, 110, 333]
    [97, 114, 109, 97] (by decide)⟩

/-! ## Lemmas about the pipeline's book bookkeeping -/

theorem loadedBooks_ids_sublist (inp : PipelineInput) :
    ((loadedBooks inp).map (fun p => p.1.book_id)).Sublist
      (inp.meta.map (fun m => m.book_id)) := by
  unfold loadedBooks
  generalize inp.meta = l
  induction l with
  | nil => exact List.Sublist.refl []
  | cons m l ih =>
    simp only [List.filterMap_cons, List.map_cons]
    cases inp.text m.book_id with
    | none => exact ih.cons m.book_id
    | some t => exact ih.cons₂ m.book_id

theorem loadedBooks_ids_nodup {inp : PipelineInput}
    (hnd : (inp.meta.map (fun m => m.book_id)).Nodup) :
    ((loadedBooks inp).map (fun p => p.1.book_id)).Nodup :=
  hnd.sublist (loadedBooks_ids_sublist inp)

theorem loadedBooks_id_inj {inp : PipelineInput}
    (hnd : (inp.meta.map (fun m => m.book_id)).Nodup) {p q : BookMeta × List ℕ}
    (hp : p ∈ loadedBooks inp) (hq : q ∈ loadedBooks inp)
    (h : p.1.book_id = q.1.book_id) : p = q := by
  have h2 := List.inj_on_of_nodup_map (loadedBooks_ids_nodup hnd)
  exact h2 hp hq h

theorem book_totals_of_mem {inp : PipelineInput}
    (hnd : (inp.meta.map (fun m => m.book_id)).Nodup) {m : BookMeta} {t : List ℕ}
    (hm : (m, t) ∈ loadedBooks inp) :
    book_totals inp m.book_id = some (sumCounts (calculate_frequencies t)) := by
  unfold book_totals
  have hsome : ((loadedBooks inp).reverse.find?
      (fun p => decide (p.1.book_id = m.book_id))).isSome := by
    rw [List.find?_isSome]
    exact ⟨(m, t), List.mem_reverse.mpr hm, by simp⟩
  obtain ⟨p, hp⟩ := Option.isSome_iff_exists.mp hsome
  have hpm : p ∈ loadedBooks inp := List.mem_reverse.mp (List.mem_of_find?_eq_some hp)
  have hpid : p.1.book_id = m.book_id := by
    have h2 := List.find?_some hp
    simpa using h2
  have hpeq : p = (m, t) := loadedBooks_id_inj hnd hpm hm hpid
  rw [hp, hpeq]
  rfl

theorem mem_booksRows {inp : PipelineInput} {br : BookRow}
    (hbr : br ∈ booksRows inp) :
    ∃ p ∈ loadedBooks inp, br = bookRowOf p.1 p.2 := by
  unfold booksRows at hbr
  obtain ⟨p, hp, hbr2⟩ := List.mem_map.mp hbr
  exact ⟨p, hp, hbr2.symm⟩

theorem book_totals_books_row {inp : PipelineInput}
    (hnd : (inp.meta.map (fun m => m.book_id)).Nodup) {br : BookRow}
    (hbr : br ∈ booksRows inp) :
    book_totals inp br.book_id = some br.total_words := by
  obtain ⟨⟨m, t⟩, hp, hbeq⟩ := mem_booksRows hbr
  subst hbeq
  have h1 : (bookRowOf m t).book_id = m.book_id := by simp only [bookRowOf]
  have h2 : (bookRowOf m t).total_words = sumCounts (calculate_frequencies t) := by
    simp only [bookRowOf]
  rw [h1, h2]
  exact book_totals_of_mem hnd hp

theorem mem_word_frequenciesRows {inp : PipelineInput} {fr : FreqRow}
    (hfr : fr ∈ word_frequenciesRows inp) :
    ∃ w bcs bid c tw, (w, bcs) ∈ all_frequencies inp ∧ (bid, c) ∈ bcs ∧
      book_totals inp bid = some tw ∧
      fr = ⟨w, bid, c, calculate_relative_frequency c tw⟩ := by
  unfold word_frequenciesRows freqRowsOf at hfr
  rw [List.mem_flatMap] at hfr
  obtain ⟨p, hp, hfr2⟩ := hfr
  rw [List.mem_filterMap] at hfr2
  obtain ⟨q, hq, hfr3⟩ := hfr2
  rw [Option.map_eq_some'] at hfr3
  obtain ⟨tw, htw, hfr4⟩ := hfr3
  exact ⟨p.1, p.2, q.1, q.2, tw, hp, hq, htw, hfr4.symm⟩

/-- Example pipeline input: the two-book corpus of the specification's
concrete scenario, `book_a` (index 0, `"arma virumque arma"`) and
`book_b` (index 5, `"arma cano"`). -/
def demoInput : PipelineInput :=
  ⟨[⟨"book_a", "Book A", 0⟩, ⟨"book_b", "Book B", 5⟩],
   fun bid =>
     if bid = "book_a" then
       some [97, 114, 109, 97, 32, 118, 105, 114, 117, 109, 113, 117, 101, 32, 97, 114, 109, 97]
     else if bid = "book_b" then some [97, 114, 109, 97, 32, 99, 97, 110, 111]
     else none⟩

/-- C2: for every `(word, book)` frequency row produced by the pipeline,
if the row's book has `total_words > 0` then the stored
`relative_frequency` equals `count / total_words * 10000` exactly (in
`ℚ`, the exact model of the float computation), and if `total_words = 0`
then `relative_frequency` is exactly `0`; moreover the helper
`calculate_relative_frequency` used for every stored row returns `0`
whenever its `total_words` argument is `0`. -/
theorem claim_C2_relative_frequency (inp : PipelineInput) (minFreq maxS : ℕ)
    (hnd : (inp.meta.map (fun m => m.book_id)).Nodup) :
    (∀ fr ∈ (run_analysis inp minFreq maxS).word_frequencies,
      ∀ br ∈ (run_analysis inp minFreq maxS).books, br.book_id = fr.book_id →
        (0 < br.total_words →
          fr.relative_frequency = (fr.count : ℚ) / (br.total_words : ℚ) * 10000) ∧
        (br.total_words = 0 → fr.relative_frequency = 0)) ∧
      ∀ c : ℕ, calculate_relative_frequency c 0 = 0 := by
  constructor
  · intro fr hfr br hbr hid
    rw [show (run_analysis inp minFreq maxS).word_frequencies = word_frequenciesRows inp from
      by simp only [run_analysis]] at hfr
    rw [show (run_analysis inp minFreq maxS).books = booksRows inp from
      by simp only [run_analysis]] at hbr
    obtain ⟨w, bcs, bid, c, tw, haf, hbc, htw, hfr_eq⟩ := mem_word_frequenciesRows hfr
    subst hfr_eq
    dsimp only at hid ⊢
    have htw2 : tw = br.total_words := by
      have hb := book_totals_books_row hnd hbr
      rw [hid] at hb
      rw [hb] at htw
      exact (Option.some.inj htw).symm
    subst htw2
    constructor
    · intro h0
      unfold calculate_relative_frequency
      rw [if_neg (by omega)]
    · intro h0
      unfold calculate_relative_frequency
      rw [if_pos h0]
  · intro c
    unfold calculate_relative_frequency
    rw [if_pos rfl]

/-- Witness for C2: the demo corpus has distinct book ids, so every
frequency row of its index satisfies the relative-frequency invariant. -/
theorem claim_C2_witness :
    (demoInput.meta.map (fun m => m.book_id)).Nodup ∧
      ((∀ fr ∈ (run_analysis demoInput 2 5).word_frequencies,
        ∀ br ∈ (run_analysis demoInput 2 5).books, br.book_id = fr.book_id →
          (0 < br.total_words →
            fr.relative_frequency = (fr.count : ℚ) / (br.total_words : ℚ) * 10000) ∧
          (br.total_words = 0 → fr.relative_frequency = 0)) ∧
        ∀ c : ℕ, calculate_relative_frequency c 0 = 0) :=
  ⟨by decide, claim_C2_relative_frequency demoInput 2 5 (by decide)⟩

/-! ## Invariants of the `all_frequencies` aggregation table -/

theorem addOne_pos {l : List (List ℕ × ℕ)} {w : List ℕ} (h : ∀ p ∈ l, 1 ≤ p.2) :
    ∀ p ∈ addOne l w, 1 ≤ p.2 := by
  induction l with
  | nil =>
    intro p hp
    simp only [addOne, List.mem_singleton] at hp
    subst hp
    exact Nat.le_refl 1
  | cons q l ih =>
    intro p hp
    rw [show addOne (q :: l) w = if q.1 = w then (q.1, q.2 + 1) :: l
        else q :: addOne l w from by cases q; rfl] at hp
    by_cases hqw : q.1 = w
    · rw [if_pos hqw] at hp
      rcases List.mem_cons.mp hp with rfl | hp2
      · exact Nat.le_add_left 1 q.2
      · exact h p (List.mem_cons_of_mem q hp2)
    · rw [if_neg hqw] at hp
      rcases List.mem_cons.mp hp with rfl | hp2
      · exact h p (List.mem_cons_self p l)
      · exact ih (fun r hr => h r (List.mem_cons_of_mem q hr)) p hp2

theorem counter_pos {ws : List (List ℕ)} : ∀ p ∈ counter ws, 1 ≤ p.2 := by
  unfold counter
  generalize hacc : ([] : List (List ℕ × ℕ)) = acc
  have h0 : ∀ p ∈ acc, 1 ≤ p.2 := by
    subst hacc
    intro p hp
    cases hp
  clear hacc
  induction ws generalizing acc with
  | nil => exact h0
  | cons w ws ih =>
    simp only [List.foldl_cons]
    exact ih _ (addOne_pos h0)

theorem addOne_keys {l : List (List ℕ × ℕ)} {w : List ℕ} :
    ((addOne l w).map Prod.fst = l.map Prod.fst ∧ w ∈ l.map Prod.fst) ∨
      ((addOne l w).map Prod.fst = l.map Prod.fst ++ [w] ∧ w ∉ l.map Prod.fst) := by
  induction l with
  | nil =>
    right
    constructor
    · rfl
    · intro h
      cases h
  | cons q l ih =>
    rw [show addOne (q :: l) w = if q.1 = w then (q.1, q.2 + 1) :: l
        else q :: addOne l w from by cases q; rfl]
    by_cases hqw : q.1 = w
    · rw [if_pos hqw]
      left
      constructor
      · simp only [List.map_cons]
      · rw [List.map_cons, hqw]
        exact List.mem_cons_self w (l.map Prod.fst)
    · rw [if_neg hqw]
      rcases ih with ⟨he, hm⟩ | ⟨he, hm⟩
      · left
        constructor
        · simp only [List.map_cons, he]
        · rw [List.map_cons]
          exact List.mem_cons_of_mem q.1 hm
      · right
        constructor
        · simp only [List.map_cons, he, List.cons_append]
        · rw [List.map_cons]
          intro h
          rcases List.mem_cons.mp h with h2 | h2
          · exact hqw h2.symm
          · exact hm h2

theorem addOne_keys_nodup {l : List (List ℕ × ℕ)} {w : List ℕ}
    (h : (l.map Prod.fst).Nodup) : ((addOne l w).map Prod.fst).Nodup := by
  rcases addOne_keys (l := l) (w := w) with ⟨he, _⟩ | ⟨he, hm⟩
  · rw [he]
    exact h
  · rw [he]
    rw [List.nodup_append]
    exact ⟨h, List.nodup_singleton w, by
      intro x hx hx2
      rw [List.mem_singleton] at hx2
      subst hx2
      exact hm hx⟩

theorem counter_keys_nodup {ws : List (List ℕ)} : ((counter ws).map Prod.fst).Nodup := by
  unfold counter
  generalize hacc : ([] : List (List ℕ × ℕ)) = acc
  have h0 : (acc.map Prod.fst).Nodup := by
    subst hacc
    exact List.nodup_nil
  clear hacc
  induction ws generalizing acc with
  | nil => exact h0
  | cons w ws ih =>
    simp only [List.foldl_cons]
    exact ih _ (addOne_keys_nodup h0)

theorem setCount_append {old : List (String × ℕ)} {bid : String} {c : ℕ}
    (h : ∀ r ∈ old, r.1 ≠ bid) : setCount old bid c = old ++ [(bid, c)] := by
  induction old with
  | nil => rfl
  | cons r old ih =>
    rw [show setCount (r :: old) bid c = if r.1 = bid then (r.1, c) :: old
        else r :: setCount old bid c from by cases r; rfl]
    rw [if_neg (h r (List.mem_cons_self r old)),
      ih (fun r2 hr2 => h r2 (List.mem_cons_of_mem r hr2)), List.cons_append]

theorem addWordCount_cases {acc : List (List ℕ × List (String × ℕ))} {w : List ℕ}
    {bid : String} {c : ℕ} :
    ∀ q ∈ addWordCount acc w bid c,
      q ∈ acc ∨ (∃ old, (w, old) ∈ acc ∧ q = (w, setCount old bid c)) ∨
        (q = (w, [(bid, c)]) ∧ w ∉ acc.map Prod.fst) := by
  induction acc with
  | nil =>
    intro q hq
    simp only [addWordCount, List.mem_singleton] at hq
    subst hq
    right
    right
    exact ⟨rfl, by intro h; cases h⟩
  | cons e acc ih =>
    intro q hq
    rw [show addWordCount (e :: acc) w bid c = if e.1 = w then (e.1, setCount e.2 bid c) :: acc
        else e :: addWordCount acc w bid c from by cases e; rfl] at hq
    by_cases hew : e.1 = w
    · rw [if_pos hew] at hq
      rcases List.mem_cons.mp hq with rfl | hq2
      · right
        left
        refine ⟨e.2, ?_, by rw [hew]⟩
        rw [show (w, e.2) = e from by rw [← hew]]
        exact List.mem_cons_self e acc
      · exact Or.inl (List.mem_cons_of_mem e hq2)
    · rw [if_neg hew] at hq
      rcases List.mem_cons.mp hq with rfl | hq2
      · exact Or.inl (List.mem_cons_self q acc)
      · rcases ih q hq2 with h | ⟨old, ho, he⟩ | ⟨he, hm⟩
        · exact Or.inl (List.mem_cons_of_mem e h)
        · exact Or.inr (Or.inl ⟨old, List.mem_cons_of_mem e ho, he⟩)
        · refine Or.inr (Or.inr ⟨he, ?_⟩)
          rw [List.map_cons]
          intro h2
          rcases List.mem_cons.mp h2 with h3 | h3
          · exact hew h3.symm
          · exact hm h3

theorem addWordCount_keys {acc : List (List ℕ × List (String × ℕ))} {w : List ℕ}
    {bid : String} {c : ℕ} :
    ((addWordCount acc w bid c).map Prod.fst = acc.map Prod.fst ∧ w ∈ acc.map Prod.fst) ∨
      ((addWordCount acc w bid c).map Prod.fst = acc.map Prod.fst ++ [w] ∧
        w ∉ acc.map Prod.fst) := by
  induction acc with
  | nil =>
    right
    constructor
    · rfl
    · intro h
      cases h
  | cons e acc ih =>
    rw [show addWordCount (e :: acc) w bid c = if e.1 = w then (e.1, setCount e.2 bid c) :: acc
        else e :: addWordCount acc w bid c from by cases e; rfl]
    by_cases hew : e.1 = w
    · rw [if_pos hew]
      left
      constructor
      · simp only [List.map_cons]
      · rw [List.map_cons, hew]
        exact List.mem_cons_self w (acc.map Prod.fst)
    · rw [if_neg hew]
      rcases ih with ⟨he, hm⟩ | ⟨he, hm⟩
      · left
        constructor
        · simp only [List.map_cons, he]
        · rw [List.map_cons]
          exact List.mem_cons_of_mem e.1 hm
      · right
        constructor
        · simp only [List.map_cons, he, List.cons_append]
        · rw [List.map_cons]
          intro h
          rcases List.mem_cons.mp h with h2 | h2
          · exact hew h2.symm
          · exact hm h2

/-- Invariant of the `all_frequencies` table while the book `bid` is
being aggregated and the Counter entries `fs` are still pending: outer
words are distinct; every inner dict is a non-empty association list
with distinct book ids, positive counts, and ids among the already
processed books or `bid`; and words still pending have not received
`bid` yet. -/
def MidInv (done : List String) (bid : String) (fs : List (List ℕ × ℕ))
    (acc : List (List ℕ × List (String × ℕ))) : Prop :=
  (acc.map Prod.fst).Nodup ∧
    ∀ q ∈ acc, q.2 ≠ [] ∧ (q.2.map Prod.fst).Nodup ∧
      (∀ r ∈ q.2, 1 ≤ r.2 ∧ (r.1 ∈ done ∨ r.1 = bid)) ∧
      (q.1 ∈ fs.map Prod.fst → ∀ r ∈ q.2, r.1 ≠ bid)

theorem addWordCount_midinv {done : List String} {bid : String} {w0 : List ℕ} {c0 : ℕ}
    {fs2 : List (List ℕ × ℕ)} {acc : List (List ℕ × List (String × ℕ))}
    (hw0 : w0 ∉ fs2.map Prod.fst) (hc0 : 1 ≤ c0)
    (hinv : MidInv done bid ((w0, c0) :: fs2) acc) :
    MidInv done bid fs2 (addWordCount acc w0 bid c0) := by
  obtain ⟨hknd, hq⟩ := hinv
  constructor
  · rcases @addWordCount_keys acc w0 bid c0 with
      ⟨he, _⟩ | ⟨he, hm⟩
    · rw [he]
      exact hknd
    · rw [he, List.nodup_append]
      exact ⟨hknd, List.nodup_singleton w0, by
        intro x hx hx2
        rw [List.mem_singleton] at hx2
        subst hx2
        exact hm hx⟩
  · intro q hmemq
    rcases addWordCount_cases q hmemq with hold | ⟨old, hoacc, heq⟩ | ⟨heq, hnew⟩
    · obtain ⟨h1, h2, h3, h4⟩ := hq q hold
      refine ⟨h1, h2, h3, ?_⟩
      intro h5
      refine h4 ?_
      rw [List.map_cons]
      exact List.mem_cons_of_mem _ h5
    · obtain ⟨h1, h2, h3, h4⟩ := hq (w0, old) hoacc
      have hfresh : ∀ r ∈ old, r.1 ≠ bid := by
        refine h4 ?_
        rw [List.map_cons]
        exact List.mem_cons_self _ _
      subst heq
      rw [setCount_append hfresh]
      refine ⟨by simp, ?_, ?_, ?_⟩
      · rw [List.map_append, List.nodup_append]
        refine ⟨h2, List.nodup_singleton bid, ?_⟩
        intro x hx hx2
        simp only [List.map_cons, List.map_nil, List.mem_singleton] at hx2
        subst hx2
        obtain ⟨r, hr, hrx⟩ := List.mem_map.mp hx
        exact hfresh r hr hrx
      · intro r hr
        rcases List.mem_append.mp hr with hr2 | hr2
        · exact h3 r hr2
        · rw [List.mem_singleton] at hr2
          subst hr2
          exact ⟨hc0, Or.inr rfl⟩
      · intro h5
        exact absurd h5 hw0
    · subst heq
      refine ⟨by simp, by simp, ?_, ?_⟩
      · intro r hr
        rw [List.mem_singleton] at hr
        subst hr
        exact ⟨hc0, Or.inr rfl⟩
      · intro h5
        exact absurd h5 hw0

theorem addBookFreqs_midinv {done : List String} {bid : String} :
    ∀ (fs : List (List ℕ × ℕ)) (acc : List (List ℕ × List (String × ℕ))),
      (fs.map Prod.fst).Nodup → (∀ p ∈ fs, 1 ≤ p.2) →
      MidInv done bid fs acc →
      MidInv done bid [] (addBookFreqs acc bid fs) := by
  intro fs
  induction fs with
  | nil =>
    intro acc _ _ h
    exact h
  | cons p fs2 ih =>
    intro acc hnd hpos hinv
    unfold addBookFreqs at ih ⊢
    simp only [List.foldl_cons]
    rw [List.map_cons] at hnd
    refine ih _ (List.Nodup.of_cons hnd) (fun r hr => hpos r (List.mem_cons_of_mem p hr)) ?_
    have h2 : MidInv done bid ((p.1, p.2) :: fs2) acc := by
      rw [show ((p.1, p.2) : List ℕ × ℕ) = p from rfl]
      exact hinv
    exact addWordCount_midinv (List.nodup_cons.mp hnd).1 (hpos p (List.mem_cons_self p fs2)) h2

/-- Invariant of the finished `all_frequencies` table over a domain of
processed book ids. -/
def TableInv (dom : List String) (acc : List (List ℕ × List (String × ℕ))) : Prop :=
  (acc.map Prod.fst).Nodup ∧
    ∀ q ∈ acc, q.2 ≠ [] ∧ (q.2.map Prod.fst).Nodup ∧ ∀ r ∈ q.2, 1 ≤ r.2 ∧ r.1 ∈ dom

theorem tableInv_to_midinv {done : List String} {bid : String} {fs : List (List ℕ × ℕ)}
    {acc : List (List ℕ × List (String × ℕ))} (hbid : bid ∉ done)
    (h : TableInv done acc) : MidInv done bid fs acc := by
  obtain ⟨h1, h2⟩ := h
  refine ⟨h1, ?_⟩
  intro q hq
  obtain ⟨g1, g2, g3⟩ := h2 q hq
  refine ⟨g1, g2, fun r hr => ⟨(g3 r hr).1, Or.inl (g3 r hr).2⟩, ?_⟩
  intro _ r hr heq
  exact hbid (heq ▸ (g3 r hr).2)

theorem midinv_to_tableInv {done : List String} {bid : String}
    {acc : List (List ℕ × List (String × ℕ))}
    (h : MidInv done bid [] acc) : TableInv (done ++ [bid]) acc := by
  obtain ⟨h1, h2⟩ := h
  refine ⟨h1, ?_⟩
  intro q hq
  obtain ⟨g1, g2, g3, _⟩ := h2 q hq
  refine ⟨g1, g2, ?_⟩
  intro r hr
  refine ⟨(g3 r hr).1, ?_⟩
  rcases (g3 r hr).2 with h3 | h3
  · exact List.mem_append.mpr (Or.inl h3)
  · exact List.mem_append.mpr (Or.inr (by rw [List.mem_singleton, h3]))

theorem all_frequencies_inv_fold :
    ∀ (lbs : List (BookMeta × List ℕ)) (done : List String)
      (acc : List (List ℕ × List (String × ℕ))),
      (done ++ lbs.map (fun p => p.1.book_id)).Nodup →
      TableInv done acc →
      TableInv (done ++ lbs.map (fun p => p.1.book_id))
        (lbs.foldl (fun a p => addBookFreqs a p.1.book_id (calculate_frequencies p.2)) acc) := by
  intro lbs
  induction lbs with
  | nil =>
    intro done acc hnd h
    simpa using h
  | cons p lbs ih =>
    intro done acc hnd h
    simp only [List.map_cons, List.foldl_cons]
    have hassoc : done ++ p.1.book_id :: lbs.map (fun p => p.1.book_id) =
        (done ++ [p.1.book_id]) ++ lbs.map (fun p => p.1.book_id) := by
      rw [List.append_assoc, List.singleton_append]
    rw [List.map_cons] at hnd
    rw [hassoc] at hnd ⊢
    have hbid : p.1.book_id ∉ done := by
      rw [List.append_assoc] at hnd
      have hd := (List.nodup_append.mp hnd).2.2
      intro hmem
      exact hd hmem (by rw [List.singleton_append]; exact List.mem_cons_self _ _)
    refine ih (done ++ [p.1.book_id]) _ hnd ?_
    refine @midinv_to_tableInv _ p.1.book_id _ ?_
    refine addBookFreqs_midinv (calculate_frequencies p.2) acc counter_keys_nodup
      (fun r hr => counter_pos r hr) ?_
    exact tableInv_to_midinv hbid h

theorem all_frequencies_inv {inp : PipelineInput}
    (hnd : (inp.meta.map (fun m => m.book_id)).Nodup) :
    TableInv ((loadedBooks inp).map (fun p => p.1.book_id)) (all_frequencies inp) := by
  have h := all_frequencies_inv_fold (loadedBooks inp) [] []
    (by rw [List.nil_append]; exact loadedBooks_ids_nodup hnd)
    ⟨List.nodup_nil, by intro q hq; cases hq⟩
  rw [List.nil_append] at h
  exact h

/-! ## Lookup agreement lemmas -/

theorem find?_eq_some_of_unique {α : Type} {p : α → Bool} {l : List α} {x : α}
    (hx : x ∈ l) (hpx : p x = true) (huniq : ∀ y ∈ l, p y = true → y = x) :
    l.find? p = some x := by
  induction l with
  | nil => cases hx
  | cons a l ih =>
    by_cases hpa : p a = true
    · have ha : a = x := huniq a (List.mem_cons_self a l) hpa
      subst ha
      exact List.find?_cons_of_pos l hpa
    · rw [List.find?_cons_of_neg l (by simpa using hpa)]
      rcases List.mem_cons.mp hx with rfl | hx2
      · exact absurd hpx hpa
      · exact ih hx2 (fun y hy hpy => huniq y (List.mem_cons_of_mem a hy) hpy)

theorem loadedBooks_meta_mem {inp : PipelineInput} {p : BookMeta × List ℕ}
    (hp : p ∈ loadedBooks inp) : p.1 ∈ inp.meta := by
  unfold loadedBooks at hp
  rw [List.mem_filterMap] at hp
  obtain ⟨m, hm, he⟩ := hp
  cases ht : inp.text m.book_id with
  | none =>
    rw [ht] at he
    cases he
  | some t =>
    rw [ht] at he
    simp only [Option.map_some', Option.some.injEq] at he
    rw [← he]
    exact hm

theorem book_id_to_metadata_eq {inp : PipelineInput}
    (hnd : (inp.meta.map (fun m => m.book_id)).Nodup) {m : BookMeta}
    (hm : m ∈ inp.meta) : book_id_to_metadata inp m.book_id = some m := by
  unfold book_id_to_metadata
  refine find?_eq_some_of_unique (List.mem_reverse.mpr hm) (by simp) ?_
  intro y hy hpy
  have hy2 : y ∈ inp.meta := List.mem_reverse.mp hy
  have hid : y.book_id = m.book_id := by simpa using hpy
  exact List.inj_on_of_nodup_map hnd hy2 hm hid

theorem books_find?_eq {inp : PipelineInput}
    (hnd : (inp.meta.map (fun m => m.book_id)).Nodup) {m : BookMeta} {t : List ℕ}
    (hm : (m, t) ∈ loadedBooks inp) :
    (booksRows inp).find? (fun b => decide (b.book_id = m.book_id)) = some (bookRowOf m t) := by
  refine find?_eq_some_of_unique ?_ (by simp [bookRowOf]) ?_
  · exact List.mem_map.mpr ⟨(m, t), hm, rfl⟩
  · intro y hy hpy
    obtain ⟨q, hq, hqe⟩ := List.mem_map.mp hy
    have hid : q.1.book_id = m.book_id := by
      rw [← hqe] at hpy
      simpa [bookRowOf] using hpy
    have hqeq : q = (m, t) := loadedBooks_id_inj hnd hq hm hid
    rw [← hqe, hqeq]

/-- Sequence index of a book id as stored in the `books` table (`0` when
the id is absent): the join of the specification's mean-position formula
with the `books` table. -/
def seqOfDb (db : DB) (bid : String) : ℤ :=
  ((db.books.find? (fun b => decide (b.book_id = bid))).map (fun b => b.sequence_index)).getD 0

/-- The specification's mean-position numerator for `w`:
`Σ sequence_index_of_book × count_in_book` over the stored frequency
rows of `w`. -/
def specWeightedSum (db : DB) (w : List ℕ) : ℚ :=
  ((db.word_frequencies.filter (fun fr => decide (fr.word = w))).map
    (fun fr => (seqOfDb db fr.book_id : ℚ) * (fr.count : ℚ))).sum

/-- Total occurrence count of `w` summed over its stored frequency
rows. -/
def specTotalCount (db : DB) (w : List ℕ) : ℕ :=
  ((db.word_frequencies.filter (fun fr => decide (fr.word = w))).map
    (fun fr => fr.count)).sum

theorem seqOfDb_run {inp : PipelineInput} (minFreq maxS : ℕ)
    (hnd : (inp.meta.map (fun m => m.book_id)).Nodup) {m : BookMeta} {t : List ℕ}
    (hm : (m, t) ∈ loadedBooks inp) :
    seqOfDb (run_analysis inp minFreq maxS) m.book_id = m.sequence_index := by
  unfold seqOfDb
  rw [show (run_analysis inp minFreq maxS).books = booksRows inp from by simp only [run_analysis]]
  rw [books_find?_eq hnd hm]
  simp [bookRowOf]

theorem freqRowsOf_words {inp : PipelineInput} {w : List ℕ} {bcs : List (String × ℕ)} :
    ∀ fr ∈ freqRowsOf inp w bcs, fr.word = w := by
  intro fr hfr
  unfold freqRowsOf at hfr
  rw [List.mem_filterMap] at hfr
  obtain ⟨r, _, he⟩ := hfr
  rw [Option.map_eq_some'] at he
  obtain ⟨tw, _, he2⟩ := he
  rw [← he2]

theorem filter_word_flatMap {inp : PipelineInput} :
    ∀ (l : List (List ℕ × List (String × ℕ))) (w : List ℕ) (bcs : List (String × ℕ)),
      (l.map Prod.fst).Nodup → (w, bcs) ∈ l →
      (l.flatMap (fun p => freqRowsOf inp p.1 p.2)).filter (fun fr => decide (fr.word = w)) =
        freqRowsOf inp w bcs := by
  intro l
  induction l with
  | nil =>
    intro w bcs _ h
    cases h
  | cons q l ih =>
    intro w bcs hnd hmem
    rw [List.map_cons, List.nodup_cons] at hnd
    simp only [List.flatMap_cons, List.filter_append]
    rcases List.mem_cons.mp hmem with heq | hmem2
    · have hq1 : q.1 = w := by rw [← heq]
      have h1 : (freqRowsOf inp q.1 q.2).filter (fun fr => decide (fr.word = w)) =
          freqRowsOf inp q.1 q.2 := by
        rw [List.filter_eq_self]
        intro fr hfr
        rw [freqRowsOf_words fr hfr, hq1]
        simp
      have h2 : (l.flatMap (fun p => freqRowsOf inp p.1 p.2)).filter
          (fun fr => decide (fr.word = w)) = [] := by
        rw [List.filter_eq_nil_iff]
        intro fr hfr
        rw [List.mem_flatMap] at hfr
        obtain ⟨p, hp, hfrp⟩ := hfr
        rw [freqRowsOf_words fr hfrp]
        have : p.1 ≠ w := by
          intro hcon
          refine hnd.1 ?_
          rw [hq1, ← hcon]
          exact List.mem_map.mpr ⟨p, hp, rfl⟩
        simpa using this
      rw [h1, h2, List.append_nil]
      rw [show q = (w, bcs) from heq.symm]
    · have hq1 : q.1 ≠ w := by
        intro hcon
        refine hnd.1 ?_
        rw [hcon]
        exact List.mem_map.mpr ⟨(w, bcs), hmem2, rfl⟩
      have h1 : (freqRowsOf inp q.1 q.2).filter (fun fr => decide (fr.word = w)) = [] := by
        rw [List.filter_eq_nil_iff]
        intro fr hfr
        rw [freqRowsOf_words fr hfr]
        simpa using hq1
      rw [h1, List.nil_append]
      exact ih w bcs hnd.2 hmem2

theorem freqRowsOf_sum {M : Type} [AddCommMonoid M] {inp : PipelineInput} {w : List ℕ}
    (g : String → ℕ → M) :
    ∀ (bcs : List (String × ℕ)), (∀ r ∈ bcs, (book_totals inp r.1).isSome) →
      ((freqRowsOf inp w bcs).map (fun fr => g fr.book_id fr.count)).sum =
        (bcs.map (fun r => g r.1 r.2)).sum := by
  intro bcs
  induction bcs with
  | nil =>
    intro _
    rfl
  | cons r bcs ih =>
    intro hdom
    obtain ⟨tw, htw⟩ := Option.isSome_iff_exists.mp (hdom r (List.mem_cons_self r bcs))
    unfold freqRowsOf
    rw [List.filterMap_cons]
    simp only [htw, Option.map_some']
    rw [List.map_cons, List.sum_cons, List.map_cons, List.sum_cons]
    have ih2 := ih (fun r2 hr2 => hdom r2 (List.mem_cons_of_mem r hr2))
    unfold freqRowsOf at ih2
    rw [ih2]

theorem foldl_weighted (inp : PipelineInput) :
    ∀ (bcs : List (String × ℕ)) (s : ℤ),
      bcs.foldl (fun s2 p =>
        match book_id_to_metadata inp p.1 with
        | some m => s2 + m.sequence_index * p.2
        | none => s2) s =
      s + (bcs.map (fun r =>
        (((book_id_to_metadata inp r.1).map (fun m => m.sequence_index)).getD 0) *
          (r.2 : ℤ))).sum := by
  intro bcs
  induction bcs with
  | nil =>
    intro s
    simp
  | cons r bcs ih =>
    intro s
    rw [List.foldl_cons, ih, List.map_cons, List.sum_cons]
    cases hm : book_id_to_metadata inp r.1 with
    | none =>
      simp only [hm, Option.map_none', Option.getD_none]
      ring
    | some m =>
      simp only [hm, Option.map_some', Option.getD_some]
      ring

theorem sumCounts_pos {bcs : List (String × ℕ)} (hne : bcs ≠ [])
    (hpos : ∀ r ∈ bcs, 1 ≤ r.2) : 0 < sumCounts bcs := by
  obtain ⟨r, rest, rfl⟩ := List.exists_cons_of_ne_nil hne
  have h1 := hpos r (List.mem_cons_self r rest)
  unfold sumCounts
  rw [List.map_cons, List.sum_cons]
  omega

theorem cast_sum_q : ∀ (l : List ℤ), ((l.sum : ℤ) : ℚ) = (l.map (fun z : ℤ => (z : ℚ))).sum := by
  intro l
  induction l with
  | nil => simp
  | cons a l ih =>
    rw [List.sum_cons, List.map_cons, List.sum_cons, Int.cast_add, ih]

/-- C3: for every word in the computed word statistics, the stored
`mean_position` equals the frequency-weighted average
`Σ (sequence_index_of_book × count_in_book) / total_count` over the
word's stored per-book frequency rows, and `total_count` is the sum of
those per-book counts. -/
theorem claim_C3_mean_position (inp : PipelineInput) (minFreq maxS : ℕ)
    (hnd : (inp.meta.map (fun m => m.book_id)).Nodup) :
    ∀ st ∈ (run_analysis inp minFreq maxS).word_stats,
      st.total_count = specTotalCount (run_analysis inp minFreq maxS) st.word ∧
        st.mean_position =
          specWeightedSum (run_analysis inp minFreq maxS) st.word / (st.total_count : ℚ) := by
  intro st hst
  rw [show (run_analysis inp minFreq maxS).word_stats = word_statsRows inp from
    by simp only [run_analysis]] at hst
  unfold word_statsRows at hst
  obtain ⟨⟨w, bcs⟩, haf, hsteq⟩ := List.mem_map.mp hst
  obtain ⟨houternd, hinner⟩ := all_frequencies_inv hnd
  obtain ⟨hbne, _, hent⟩ := hinner (w, bcs) haf
  have hloaded : ∀ r ∈ bcs, ∃ p ∈ loadedBooks inp, p.1.book_id = r.1 := by
    intro r hr
    obtain ⟨p, hp, hpe⟩ := List.mem_map.mp (hent r hr).2
    exact ⟨p, hp, hpe⟩
  have hdomtot : ∀ r ∈ bcs, (book_totals inp r.1).isSome := by
    intro r hr
    obtain ⟨⟨m, t⟩, hp, hpe⟩ := hloaded r hr
    dsimp only at hpe
    rw [← hpe, book_totals_of_mem hnd hp]
    rfl
  have hfilter : (run_analysis inp minFreq maxS).word_frequencies.filter
      (fun fr => decide (fr.word = w)) = freqRowsOf inp w bcs := by
    rw [show (run_analysis inp minFreq maxS).word_frequencies = word_frequenciesRows inp from
      by simp only [run_analysis]]
    unfold word_frequenciesRows
    exact filter_word_flatMap (all_frequencies inp) w bcs houternd haf
  have htotpos : 0 < sumCounts bcs := sumCounts_pos hbne (fun r hr => (hent r hr).1)
  have hws : (weightedSeqSum inp bcs : ℚ) = specWeightedSum (run_analysis inp minFreq maxS) w := by
    unfold specWeightedSum
    rw [hfilter]
    rw [freqRowsOf_sum
      (fun bid c => (seqOfDb (run_analysis inp minFreq maxS) bid : ℚ) * (c : ℚ)) bcs hdomtot]
    unfold weightedSeqSum
    rw [foldl_weighted, zero_add, cast_sum_q, List.map_map]
    refine congrArg List.sum (List.map_congr_left ?_)
    intro r hr
    obtain ⟨⟨m, t⟩, hp, hpe⟩ := hloaded r hr
    dsimp only at hpe
    have hmeta : book_id_to_metadata inp r.1 = some m := by
      rw [← hpe]
      exact book_id_to_metadata_eq hnd (loadedBooks_meta_mem hp)
    have hseq : seqOfDb (run_analysis inp minFreq maxS) r.1 = m.sequence_index := by
      rw [← hpe]
      exact seqOfDb_run minFreq maxS hnd hp
    simp only [Function.comp, hmeta, Option.map_some', Option.getD_some, hseq]
    push_cast
    ring
  subst hsteq
  simp only [statRowOf]
  constructor
  · rw [show specTotalCount (run_analysis inp minFreq maxS) w =
      ((((run_analysis inp minFreq maxS).word_frequencies.filter
        (fun fr => decide (fr.word = w))).map (fun fr => fr.count)).sum) from rfl]
    rw [hfilter]
    exact (freqRowsOf_sum (fun bid c => c) bcs hdomtot).symm
  · rw [if_pos htotpos, hws]

/-- Witness for C3: on the demo corpus (distinct book ids) every
`word_stats` row satisfies the mean-position formula; e.g. `"arma"`
gets `(0*2 + 5*1) / 3`. -/
theorem claim_C3_witness :
    (demoInput.meta.map (fun m => m.book_id)).Nodup ∧
      ∀ st ∈ (run_analysis demoInput 2 5).word_stats,
        st.total_count = specTotalCount (run_analysis demoInput 2 5) st.word ∧
          st.mean_position =
            specWeightedSum (run_analysis demoInput 2 5) st.word / (st.total_count : ℚ) :=
  ⟨by decide, claim_C3_mean_position demoInput 2 5 (by decide)⟩

/-! ## Mean-position bounds (C8) -/

instance : Std.Antisymm (fun x1 x2 : ℤ => x1 ≤ x2) where
  antisymm h h2 := le_antisymm h h2

/-- Sequence index recorded in `book_id_to_metadata` for a book id (`0`
when absent). -/
def metaSeqZ (inp : PipelineInput) (bid : String) : ℤ :=
  ((book_id_to_metadata inp bid).map (fun m => m.sequence_index)).getD 0

theorem weightedSeqSum_cast (inp : PipelineInput) (bcs : List (String × ℕ)) :
    (weightedSeqSum inp bcs : ℚ) =
      (bcs.map (fun r => (metaSeqZ inp r.1 : ℚ) * (r.2 : ℚ))).sum := by
  unfold weightedSeqSum metaSeqZ
  rw [foldl_weighted, zero_add, cast_sum_q, List.map_map]
  refine congrArg List.sum (List.map_congr_left ?_)
  intro r hr
  simp only [Function.comp]
  push_cast
  ring

theorem cast_sumCounts_q (bcs : List (String × ℕ)) :
    ((sumCounts bcs : ℕ) : ℚ) = (bcs.map (fun r => (r.2 : ℚ))).sum := by
  unfold sumCounts
  induction bcs with
  | nil => simp
  | cons r bcs ih =>
    rw [List.map_cons, List.sum_cons, List.map_cons, List.sum_cons, Nat.cast_add, ih]

theorem weighted_sum_bounds {lo hi : ℚ} (v : String → ℚ) :
    ∀ (bcs : List (String × ℕ)), (∀ r ∈ bcs, 1 ≤ r.2) →
      (∀ r ∈ bcs, lo ≤ v r.1 ∧ v r.1 ≤ hi) →
      lo * (bcs.map (fun r => (r.2 : ℚ))).sum ≤
          (bcs.map (fun r => v r.1 * (r.2 : ℚ))).sum ∧
        (bcs.map (fun r => v r.1 * (r.2 : ℚ))).sum ≤
          hi * (bcs.map (fun r => (r.2 : ℚ))).sum := by
  intro bcs
  induction bcs with
  | nil =>
    intro _ _
    simp
  | cons r bcs ih =>
    intro hpos hb
    obtain ⟨ih1, ih2⟩ := ih (fun x hx => hpos x (List.mem_cons_of_mem r hx))
      (fun x hx => hb x (List.mem_cons_of_mem r hx))
    simp only [List.map_cons, List.sum_cons]
    have hc : (1 : ℚ) ≤ (r.2 : ℚ) := by
      exact_mod_cast hpos r (List.mem_cons_self r bcs)
    have hv := hb r (List.mem_cons_self r bcs)
    constructor
    · rw [mul_add]
      exact add_le_add (mul_le_mul_of_nonneg_right hv.1 (by linarith)) ih1
    · rw [mul_add]
      exact add_le_add (mul_le_mul_of_nonneg_right hv.2 (by linarith)) ih2

/-- The books of the index in which `w` occurs, i.e. those having a
stored frequency row for `w`. -/
def booksWithWord (db : DB) (w : List ℕ) : List BookRow :=
  db.books.filter (fun b =>
    decide (∃ fr ∈ db.word_frequencies, fr.word = w ∧ fr.book_id = b.book_id))

/-- C8: for every word in the computed statistics, `mean_position` lies
between the minimum and maximum `sequence_index` of the books in which
the word occurs (the frequency-weighted centroid never leaves the range
of its support). -/
theorem claim_C8_mean_position_in_range (inp : PipelineInput) (minFreq maxS : ℕ)
    (hnd : (inp.meta.map (fun m => m.book_id)).Nodup) :
    ∀ st ∈ (run_analysis inp minFreq maxS).word_stats, ∀ lo hi : ℤ,
      ((booksWithWord (run_analysis inp minFreq maxS) st.word).map
        (fun b => b.sequence_index)).min? = some lo →
      ((booksWithWord (run_analysis inp minFreq maxS) st.word).map
        (fun b => b.sequence_index)).max? = some hi →
      (lo : ℚ) ≤ st.mean_position ∧ st.mean_position ≤ (hi : ℚ) := by
  intro st hst lo hi hmin hmax
  rw [show (run_analysis inp minFreq maxS).word_stats = word_statsRows inp from
    by simp only [run_analysis]] at hst
  unfold word_statsRows at hst
  obtain ⟨⟨w, bcs⟩, haf, hsteq⟩ := List.mem_map.mp hst
  subst hsteq
  obtain ⟨houternd, hinner⟩ := all_frequencies_inv hnd
  obtain ⟨hbne, _, hent⟩ := hinner (w, bcs) haf
  have hloaded : ∀ r ∈ bcs, ∃ p ∈ loadedBooks inp, p.1.book_id = r.1 := by
    intro r hr
    obtain ⟨p, hp, hpe⟩ := List.mem_map.mp (hent r hr).2
    exact ⟨p, hp, hpe⟩
  have htotpos : 0 < sumCounts bcs := sumCounts_pos hbne (fun r hr => (hent r hr).1)
  simp only [statRowOf] at hmin hmax ⊢
  rw [List.min?_eq_some_iff (fun x => le_refl x) (fun x y => min_choice x y)
    (fun x y z => le_min_iff)] at hmin
  rw [List.max?_eq_some_iff (fun x => le_refl x) (fun x y => max_choice x y)
    (fun x y z => max_le_iff)] at hmax
  have hbounds : ∀ r ∈ bcs,
      (lo : ℚ) ≤ (metaSeqZ inp r.1 : ℚ) ∧ (metaSeqZ inp r.1 : ℚ) ≤ (hi : ℚ) := by
    intro r hr
    obtain ⟨⟨m, t⟩, hp, hpe⟩ := hloaded r hr
    dsimp only at hpe
    have hm1 : metaSeqZ inp r.1 = m.sequence_index := by
      unfold metaSeqZ
      rw [← hpe, book_id_to_metadata_eq hnd (loadedBooks_meta_mem hp)]
      rfl
    obtain ⟨tw, htw⟩ : ∃ tw, book_totals inp r.1 = some tw := by
      refine ⟨sumCounts (calculate_frequencies t), ?_⟩
      rw [← hpe]
      exact book_totals_of_mem hnd hp
    have hfr : (⟨w, r.1, r.2, calculate_relative_frequency r.2 tw⟩ : FreqRow) ∈
        (run_analysis inp minFreq maxS).word_frequencies := by
      rw [show (run_analysis inp minFreq maxS).word_frequencies = word_frequenciesRows inp from
        by simp only [run_analysis]]
      unfold word_frequenciesRows
      rw [List.mem_flatMap]
      refine ⟨(w, bcs), haf, ?_⟩
      unfold freqRowsOf
      rw [List.mem_filterMap]
      exact ⟨r, hr, by rw [htw]; rfl⟩
    have hbook : bookRowOf m t ∈ booksWithWord (run_analysis inp minFreq maxS) w := by
      unfold booksWithWord
      rw [List.mem_filter]
      constructor
      · rw [show (run_analysis inp minFreq maxS).books = booksRows inp from
          by simp only [run_analysis]]
        exact List.mem_map.mpr ⟨(m, t), hp, rfl⟩
      · rw [decide_eq_true_eq]
        refine ⟨⟨w, r.1, r.2, calculate_relative_frequency r.2 tw⟩, hfr, rfl, ?_⟩
        show r.1 = (bookRowOf m t).book_id
        rw [← hpe]
        simp [bookRowOf]
    have hseqmem : m.sequence_index ∈
        ((booksWithWord (run_analysis inp minFreq maxS) w).map (fun b => b.sequence_index)) := by
      refine List.mem_map.mpr ⟨bookRowOf m t, hbook, ?_⟩
      simp [bookRowOf]
    rw [hm1]
    exact ⟨by exact_mod_cast hmin.2 _ hseqmem, by exact_mod_cast hmax.2 _ hseqmem⟩
  rw [if_pos htotpos, weightedSeqSum_cast]
  have hT : (0 : ℚ) < (sumCounts bcs : ℚ) := by exact_mod_cast htotpos
  obtain ⟨hb1, hb2⟩ := weighted_sum_bounds (fun bid => (metaSeqZ inp bid : ℚ)) bcs
    (fun r hr => (hent r hr).1) hbounds
  constructor
  · rw [le_div_iff₀ hT, cast_sumCounts_q]
    exact hb1
  · rw [div_le_iff₀ hT, cast_sumCounts_q]
    exact hb2

/-- Witness for C8: on the demo corpus every word's mean position lies
between the minimum and maximum sequence index of its books. -/
theorem claim_C8_witness :
    (demoInput.meta.map (fun m => m.book_id)).Nodup ∧
      ∀ st ∈ (run_analysis demoInput 2 5).word_stats, ∀ lo hi : ℤ,
        ((booksWithWord (run_analysis demoInput 2 5) st.word).map
          (fun b => b.sequence_index)).min? = some lo →
        ((booksWithWord (run_analysis demoInput 2 5) st.word).map
          (fun b => b.sequence_index)).max? = some hi →
        (lo : ℚ) ≤ st.mean_position ∧ st.mean_position ≤ (hi : ℚ) :=
  ⟨by decide, claim_C8_mean_position_in_range demoInput 2 5 (by decide)⟩

/-! ## Coverage completeness of `get_word_frequencies` (C4) -/

theorem freqRowsOf_bids_sublist {inp : PipelineInput} {w : List ℕ} :
    ∀ (bcs : List (String × ℕ)),
      ((freqRowsOf inp w bcs).map (fun fr => fr.book_id)).Sublist (bcs.map Prod.fst) := by
  intro bcs
  induction bcs with
  | nil => exact List.Sublist.refl []
  | cons r bcs ih =>
    unfold freqRowsOf at ih ⊢
    rw [List.filterMap_cons, List.map_cons]
    cases htw : book_totals inp r.1 with
    | none => exact ih.cons r.1
    | some tw =>
      rw [Option.map_some', List.map_cons]
      exact ih.cons₂ r.1

theorem filter_bid_le_one {bid : String} :
    ∀ (rows : List FreqRow), ((rows.map (fun fr => fr.book_id)).Nodup) →
      ((rows.filter (fun fr => decide (bid = fr.book_id))).length ≤ 1) := by
  intro rows
  induction rows with
  | nil =>
    intro _
    exact Nat.zero_le 1
  | cons fr rows ih =>
    intro hnd
    rw [List.map_cons, List.nodup_cons] at hnd
    rw [List.filter_cons]
    by_cases hb : bid = fr.book_id
    · rw [if_pos (by simpa using hb)]
      have hrest : rows.filter (fun fr2 => decide (bid = fr2.book_id)) = [] := by
        rw [List.filter_eq_nil_iff]
        intro fr2 hfr2
        simp only [decide_eq_true_eq]
        intro hcon
        refine hnd.1 ?_
        rw [← hb, hcon]
        exact List.mem_map.mpr ⟨fr2, hfr2, rfl⟩
      rw [hrest]
      exact Nat.le_refl 1
    · rw [if_neg (by simpa using hb)]
      exact ih hnd.2

theorem word_freq_filter_le_one {inp : PipelineInput}
    (hnd : (inp.meta.map (fun m => m.book_id)).Nodup) (w2 : List ℕ) (bid : String) :
    ((word_frequenciesRows inp).filter
      (fun fr => decide (bid = fr.book_id) && decide (fr.word = w2))).length ≤ 1 := by
  obtain ⟨houternd, hinner⟩ := all_frequencies_inv hnd
  rw [← List.filter_filter]
  by_cases hmem : ∃ bcs, (w2, bcs) ∈ all_frequencies inp
  · obtain ⟨bcs, hbcs⟩ := hmem
    rw [show (word_frequenciesRows inp).filter (fun fr => decide (fr.word = w2)) =
        freqRowsOf inp w2 bcs from by
      unfold word_frequenciesRows
      exact filter_word_flatMap (all_frequencies inp) w2 bcs houternd hbcs]
    refine filter_bid_le_one (freqRowsOf inp w2 bcs) ?_
    obtain ⟨_, hbnd, _⟩ := hinner (w2, bcs) hbcs
    exact hbnd.sublist (freqRowsOf_bids_sublist bcs)
  · rw [show (word_frequenciesRows inp).filter (fun fr => decide (fr.word = w2)) = [] from by
      rw [List.filter_eq_nil_iff]
      intro fr hfr
      unfold word_frequenciesRows at hfr
      rw [List.mem_flatMap] at hfr
      obtain ⟨q, hq, hfrq⟩ := hfr
      rw [freqRowsOf_words fr hfrq]
      simp only [decide_eq_true_eq]
      intro hcon
      exact hmem ⟨q.2, by rw [← hcon]; exact hq⟩]
    rw [List.filter_nil]
    exact Nat.zero_le 1

theorem booksRows_ids_nodup {inp : PipelineInput}
    (hnd : (inp.meta.map (fun m => m.book_id)).Nodup) :
    ((booksRows inp).map (fun b => b.book_id)).Nodup := by
  have he : (booksRows inp).map (fun b => b.book_id) =
      (loadedBooks inp).map (fun p => p.1.book_id) := by
    unfold booksRows
    rw [List.map_map]
    refine List.map_congr_left ?_
    intro p _
    simp [bookRowOf]
  rw [he]
  exact loadedBooks_ids_nodup hnd

theorem flatMap_singleton_maps {α β : Type} (f : α → List β) (gb : β → String)
    (ga : α → String) (gsb : β → ℤ) (gsa : α → ℤ) (P : β → Prop) :
    ∀ (l : List α), (∀ a ∈ l, ∃ r, f a = [r] ∧ gb r = ga a ∧ gsb r = gsa a ∧ P r) →
      (l.flatMap f).map gb = l.map ga ∧ (l.flatMap f).map gsb = l.map gsa ∧
        ∀ r ∈ l.flatMap f, P r := by
  intro l
  induction l with
  | nil =>
    intro _
    exact ⟨rfl, rfl, by intro r hr; cases hr⟩
  | cons a l ih =>
    intro h
    obtain ⟨r, hfa, h1, h2, h3⟩ := h a (List.mem_cons_self a l)
    obtain ⟨ih1, ih2, ih3⟩ := ih (fun a2 ha2 => h a2 (List.mem_cons_of_mem a ha2))
    rw [List.flatMap_cons, hfa]
    refine ⟨?_, ?_, ?_⟩
    · simp only [List.map_append, List.map_cons, List.map_nil, ih1, h1, List.nil_append,
        List.singleton_append]
    · simp only [List.map_append, List.map_cons, List.map_nil, ih2, h2, List.nil_append,
        List.singleton_append]
    · intro r2 hr2
      rcases List.mem_append.mp hr2 with hr3 | hr3
      · rw [List.mem_singleton] at hr3
        subst hr3
        exact h3
      · exact ih3 r2 hr3

theorem gwf_body_single (db : DB) (w : List ℕ) (b : BookRow)
    (hle : (db.word_frequencies.filter (fun fr =>
      decide (b.book_id = fr.book_id) && decide (fr.word = lowerStr w))).length ≤ 1) :
    ∃ r : FreqResult,
      (match db.word_frequencies.filter (fun fr =>
          decide (b.book_id = fr.book_id) && decide (fr.word = lowerStr w)) with
        | [] => [⟨b.book_id, b.title, b.sequence_index, 0, 0⟩]
        | fr :: frs => (fr :: frs).map (fun fr2 =>
            ⟨b.book_id, b.title, b.sequence_index, fr2.count, fr2.relative_frequency⟩)) = [r] ∧
      r.book_id = b.book_id ∧ r.sequence_index = b.sequence_index ∧
      ((∀ fr ∈ db.word_frequencies, ¬(fr.word = lowerStr w ∧ fr.book_id = r.book_id)) →
        r.count = 0 ∧ r.relative_frequency = 0) := by
  cases hf : db.word_frequencies.filter (fun fr =>
      decide (b.book_id = fr.book_id) && decide (fr.word = lowerStr w)) with
  | nil =>
    exact ⟨⟨b.book_id, b.title, b.sequence_index, 0, 0⟩, rfl, rfl, rfl, fun _ => ⟨rfl, rfl⟩⟩
  | cons fr frs =>
    cases frs with
    | nil =>
      refine ⟨⟨b.book_id, b.title, b.sequence_index, fr.count, fr.relative_frequency⟩,
        rfl, rfl, rfl, ?_⟩
      intro habs
      have hfr : fr ∈ db.word_frequencies.filter (fun fr =>
          decide (b.book_id = fr.book_id) && decide (fr.word = lowerStr w)) := by
        rw [hf]
        exact List.mem_singleton.mpr rfl
      rw [List.mem_filter] at hfr
      obtain ⟨hfr1, hfr2⟩ := hfr
      rw [Bool.and_eq_true, decide_eq_true_eq, decide_eq_true_eq] at hfr2
      exact absurd ⟨hfr2.2, hfr2.1.symm⟩ (habs fr hfr1)
    | cons fr2 frs2 =>
      rw [hf] at hle
      simp only [List.length_cons] at hle
      omega

/-- C4: for every query word (after lowercasing), `get_word_frequencies`
returns exactly one result row per book stored in the index, ordered by
ascending `sequence_index`, with `count = 0` and
`relative_frequency = 0` for books with no stored row for the word
(i.e. books where the word does not occur). -/
theorem claim_C4_coverage_completeness (inp : PipelineInput) (minFreq maxS : ℕ) (w : List ℕ)
    (hnd : (inp.meta.map (fun m => m.book_id)).Nodup) :
    ((get_word_frequencies (run_analysis inp minFreq maxS) w).map (fun r => r.book_id)).Perm
        ((run_analysis inp minFreq maxS).books.map (fun b => b.book_id)) ∧
      (∀ b ∈ (run_analysis inp minFreq maxS).books,
        ((get_word_frequencies (run_analysis inp minFreq maxS) w).map
          (fun r => r.book_id)).count b.book_id = 1) ∧
      List.Sorted (fun x y : ℤ => x ≤ y)
        ((get_word_frequencies (run_analysis inp minFreq maxS) w).map
          (fun r => r.sequence_index)) ∧
      ∀ r ∈ get_word_frequencies (run_analysis inp minFreq maxS) w,
        (∀ fr ∈ (run_analysis inp minFreq maxS).word_frequencies,
          ¬(fr.word = lowerStr w ∧ fr.book_id = r.book_id)) →
        r.count = 0 ∧ r.relative_frequency = 0 := by
  have hone : ∀ b ∈ (run_analysis inp minFreq maxS).books.insertionSort seqLeB,
      ∃ r : FreqResult,
        (match (run_analysis inp minFreq maxS).word_frequencies.filter (fun fr =>
            decide (b.book_id = fr.book_id) && decide (fr.word = lowerStr w)) with
          | [] => [⟨b.book_id, b.title, b.sequence_index, 0, 0⟩]
          | fr :: frs => (fr :: frs).map (fun fr2 =>
              ⟨b.book_id, b.title, b.sequence_index, fr2.count, fr2.relative_frequency⟩)) = [r] ∧
        (fun r2 : FreqResult => r2.book_id) r = (fun b2 : BookRow => b2.book_id) b ∧
        (fun r2 : FreqResult => r2.sequence_index) r = (fun b2 : BookRow => b2.sequence_index) b ∧
        (fun r2 : FreqResult =>
          (∀ fr ∈ (run_analysis inp minFreq maxS).word_frequencies,
            ¬(fr.word = lowerStr w ∧ fr.book_id = r2.book_id)) →
          r2.count = 0 ∧ r2.relative_frequency = 0) r := by
    intro b _
    refine gwf_body_single (run_analysis inp minFreq maxS) w b ?_
    rw [show (run_analysis inp minFreq maxS).word_frequencies = word_frequenciesRows inp from
      by simp only [run_analysis]]
    exact word_freq_filter_le_one hnd (lowerStr w) b.book_id
  obtain ⟨he1, he2, he3⟩ := flatMap_singleton_maps
    (fun b : BookRow =>
      match (run_analysis inp minFreq maxS).word_frequencies.filter (fun fr =>
          decide (b.book_id = fr.book_id) && decide (fr.word = lowerStr w)) with
        | [] => [⟨b.book_id, b.title, b.sequence_index, 0, 0⟩]
        | fr :: frs => (fr :: frs).map (fun fr2 =>
            ⟨b.book_id, b.title, b.sequence_index, fr2.count, fr2.relative_frequency⟩))
    (fun r => r.book_id) (fun b => b.book_id) (fun r => r.sequence_index)
    (fun b => b.sequence_index)
    (fun r2 : FreqResult =>
      (∀ fr ∈ (run_analysis inp minFreq maxS).word_frequencies,
        ¬(fr.word = lowerStr w ∧ fr.book_id = r2.book_id)) →
      r2.count = 0 ∧ r2.relative_frequency = 0)
    ((run_analysis inp minFreq maxS).books.insertionSort seqLeB) hone
  have hgw : get_word_frequencies (run_analysis inp minFreq maxS) w =
      ((run_analysis inp minFreq maxS).books.insertionSort seqLeB).flatMap
        (fun b : BookRow =>
          match (run_analysis inp minFreq maxS).word_frequencies.filter (fun fr =>
              decide (b.book_id = fr.book_id) && decide (fr.word = lowerStr w)) with
            | [] => [⟨b.book_id, b.title, b.sequence_index, 0, 0⟩]
            | fr :: frs => (fr :: frs).map (fun fr2 =>
                ⟨b.book_id, b.title, b.sequence_index, fr2.count, fr2.relative_frequency⟩)) := rfl
  rw [hgw]
  have hperm := List.perm_insertionSort seqLeB (run_analysis inp minFreq maxS).books
  refine ⟨?_, ?_, ?_, he3⟩
  · rw [he1]
    exact hperm.map (fun b => b.book_id)
  · intro b hb
    rw [he1, List.Perm.count_eq (hperm.map (fun b => b.book_id))]
    refine List.count_eq_one_of_mem ?_ ?_
    · rw [show (run_analysis inp minFreq maxS).books = booksRows inp from
        by simp only [run_analysis]]
      exact booksRows_ids_nodup hnd
    · exact List.mem_map.mpr ⟨b, hb, rfl⟩
  · rw [he2]
    have hsorted := List.sorted_insertionSort seqLeB (run_analysis inp minFreq maxS).books
    exact List.Pairwise.map (fun b : BookRow => b.sequence_index)
      (fun (a b : BookRow) (h : seqLeB a b) => h) hsorted

/-- Witness for C4: querying `"virumque"` on the demo index gives one
row per book (zero-filled for `book_b`), sorted by sequence index. -/
theorem claim_C4_witness :
    (demoInput.meta.map (fun m => m.book_id)).Nodup ∧
      (((get_word_frequencies (run_analysis demoInput 2 5)
            [118, 105, 114, 117, 109, 113, 117, 101]).map (fun r => r.book_id)).Perm
          ((run_analysis demoInput 2 5).books.map (fun b => b.book_id)) ∧
        (∀ b ∈ (run_analysis demoInput 2 5).books,
          ((get_word_frequencies (run_analysis demoInput 2 5)
            [118, 105, 114, 117, 109, 113, 117, 101]).map
            (fun r => r.book_id)).count b.book_id = 1) ∧
        List.Sorted (fun x y : ℤ => x ≤ y)
          ((get_word_frequencies (run_analysis demoInput 2 5)
            [118, 105, 114, 117, 109, 113, 117, 101]).map
            (fun r => r.sequence_index)) ∧
        ∀ r ∈ get_word_frequencies (run_analysis demoInput 2 5)
            [118, 105, 114, 117, 109, 113, 117, 101],
          (∀ fr ∈ (run_analysis demoInput 2 5).word_frequencies,
            ¬(fr.word = lowerStr [118, 105, 114, 117, 109, 113, 117, 101] ∧
              fr.book_id = r.book_id)) →
          r.count = 0 ∧ r.relative_frequency = 0) :=
  ⟨by decide, claim_C4_coverage_completeness demoInput 2 5
    [118, 105, 114, 117, 109, 113, 117, 101] (by decide)⟩

/-! ## Slice and boundary lemmas for the snippet extractor -/

theorem sliceOf_length {s : List ℕ} {a b : ℕ} (hb : b ≤ s.length) (hab : a ≤ b) :
    (sliceOf s a b).length = b - a := by
  unfold sliceOf
  rw [List.length_take, List.length_drop]
  omega

theorem sliceOf_same {s : List ℕ} {a : ℕ} : sliceOf s a a = [] := by
  unfold sliceOf
  rw [Nat.sub_self, List.take_zero]

theorem sliceOf_append {s : List ℕ} {a m b : ℕ} (h1 : a ≤ m) (h2 : m ≤ b) :
    sliceOf s a b = sliceOf s a m ++ sliceOf s m b := by
  unfold sliceOf
  rw [show b - a = (m - a) + (b - m) from by omega, List.take_add]
  congr 2
  rw [List.drop_drop, show a + (m - a) = m from by omega]

theorem wordAt_append_right (u v : List ℕ) (k : ℕ) :
    wordAt (u ++ v) (u.length + k) = wordAt v k := by
  unfold wordAt
  rw [List.getElem?_append_right (by omega), show u.length + k - u.length = k from by omega]

theorem wordAt_append_start (u v : List ℕ) : wordAt (u ++ v) u.length = wordAt v 0 := by
  have h := wordAt_append_right u v 0
  rw [Nat.add_zero] at h
  exact h

theorem wordAt_append_left {u : List ℕ} (v : List ℕ) {k : ℕ} (h : k < u.length) :
    wordAt (u ++ v) k = wordAt u k := by
  unfold wordAt
  rw [List.getElem?_append, if_pos h]

theorem wordAt_slice {s : List ℕ} {a b k : ℕ} (h : a + k < b) (_hb : b ≤ s.length) :
    wordAt (sliceOf s a b) k = wordAt s (a + k) := by
  unfold wordAt sliceOf
  rw [List.getElem?_take, if_pos (by omega), List.getElem?_drop]

theorem wordAt_ge_length {s : List ℕ} {k : ℕ} (h : s.length ≤ k) : wordAt s k = false := by
  unfold wordAt
  rw [List.getElem?_eq_none h]
  rfl

theorem matchesAt_le {s w : List ℕ} {i : ℕ} (h : matchesAt s w i = true) :
    i + w.length ≤ s.length := by
  rw [matchesAt, Bool.and_eq_true, Bool.and_eq_true] at h
  obtain ⟨⟨hs, hb1⟩, hb2⟩ := h
  rw [decide_eq_true_eq] at hs
  by_cases hW : w.length = 0
  · rw [hW, Nat.add_zero]
    by_contra hcon
    push_neg at hcon
    have h1 : wordAt s i = false := wordAt_ge_length (by omega)
    have h2 : wordBefore s i = false := by
      cases i with
      | zero => rfl
      | succ j => exact wordAt_ge_length (by omega)
    rw [boundaryAt, h1, h2] at hb1
    simp at hb1
  · have hlen := congrArg List.length hs
    rw [List.length_map, List.length_map] at hlen
    unfold sliceOf at hlen
    rw [List.length_take, List.length_drop] at hlen
    omega

theorem mkSnippet_decomp (text w : List ℕ) (cc i : ℕ)
    (hiW : i + w.length ≤ text.length) :
    (mkSnippet text w cc i).context =
      ((if 0 < i - cc then ELLIPSIS else []) ++ sliceOf text (i - cc) i) ++
        (sliceOf text i (i + w.length) ++
          (sliceOf text (i + w.length) (min text.length (i + w.length + cc)) ++
            (if min text.length (i + w.length + cc) < text.length then ELLIPSIS else []))) := by
  have h1 : sliceOf text (i - cc) (min text.length (i + w.length + cc)) =
      sliceOf text (i - cc) i ++ (sliceOf text i (i + w.length) ++
        sliceOf text (i + w.length) (min text.length (i + w.length + cc))) := by
    rw [← sliceOf_append (show i ≤ i + w.length by omega) (show i + w.length ≤
      min text.length (i + w.length + cc) by omega)]
    rw [← sliceOf_append (show i - cc ≤ i by omega) (show i ≤
      min text.length (i + w.length + cc) by omega)]
  simp only [mkSnippet, h1]
  by_cases hL : 0 < i - cc
  · rw [if_pos hL]
    by_cases hR : min text.length (i + w.length + cc) < text.length
    · rw [if_pos hR, if_pos hR]
      simp [List.append_assoc]
      rw [if_pos (show cc < i from by omega)]
    · rw [if_neg hR, if_neg hR]
      simp [List.append_assoc]
      rw [if_pos (show cc < i from by omega)]
  · rw [if_neg hL]
    by_cases hR : min text.length (i + w.length + cc) < text.length
    · rw [if_pos hR, if_pos hR]
      simp [List.append_assoc]
      intro h2
      exact absurd h2 (by omega)
    · rw [if_neg hR, if_neg hR]
      simp [List.append_assoc]
      intro h2
      exact absurd h2 (by omega)

theorem sliceOf_append_left (u v : List ℕ) (n : ℕ) :
    sliceOf (u ++ v) u.length (u.length + n) = v.take n := by
  unfold sliceOf
  rw [List.drop_left, show u.length + n - u.length = n from by omega]

theorem take_length_append {u v : List ℕ} {n : ℕ} (h : u.length = n) :
    (u ++ v).take n = u := by
  subst h
  exact List.take_left u v

theorem snippet_window_matches {text w : List ℕ} {i start e : ℕ} (optL optR : List ℕ)
    (hs : (sliceOf text i (i + w.length)).map lowerChar = w.map lowerChar)
    (hb1 : boundaryAt text i = true) (hb2 : boundaryAt text (i + w.length) = true)
    (hiW : i + w.length ≤ text.length)
    (hstart_le : start ≤ i) (he1 : i + w.length ≤ e) (he2 : e ≤ text.length)
    (hadjL : i ≠ 0 → start < i) (hadjR : i + w.length ≠ text.length → i + w.length < e)
    (hL0 : i = 0 → optL = []) (hR0 : e = text.length → optR = []) :
    matchesAt (optL ++ sliceOf text start i ++
        (sliceOf text i (i + w.length) ++ (sliceOf text (i + w.length) e ++ optR))) w
      (optL ++ sliceOf text start i).length = true := by
  have hMlen : (sliceOf text i (i + w.length)).length = w.length := by
    rw [sliceOf_length hiW (by omega)]
    omega
  have hUlen : (optL ++ sliceOf text start i).length = optL.length + (i - start) := by
    rw [List.length_append, sliceOf_length (by omega) hstart_le]
  have hwAt : wordAt (optL ++ sliceOf text start i ++
      (sliceOf text i (i + w.length) ++ (sliceOf text (i + w.length) e ++ optR)))
      (optL ++ sliceOf text start i).length = wordAt text i := by
    rw [wordAt_append_start]
    rw [show sliceOf text i (i + w.length) ++ (sliceOf text (i + w.length) e ++ optR) =
        sliceOf text i e ++ optR from by
      rw [sliceOf_append (show i ≤ i + w.length by omega) he1, List.append_assoc]]
    by_cases hie : i < e
    · have hlen1 : (0 : ℕ) < (sliceOf text i e).length := by
        rw [sliceOf_length he2 (by omega)]
        omega
      rw [wordAt_append_left optR hlen1]
      have h2 := wordAt_slice (s := text) (a := i) (b := e) (k := 0) (by omega) he2
      rw [Nat.add_zero] at h2
      rw [h2]
    · have hieq : i = e := by omega
      have hiL : i = text.length := by
        by_contra hcon
        have h3 := hadjR (by omega)
        omega
      rw [show sliceOf text i e = [] from by rw [hieq]; exact sliceOf_same,
        hR0 (by omega), List.nil_append, wordAt_ge_length (by simp),
        wordAt_ge_length (by omega)]
  have hwBefore : wordBefore (optL ++ sliceOf text start i ++
      (sliceOf text i (i + w.length) ++ (sliceOf text (i + w.length) e ++ optR)))
      (optL ++ sliceOf text start i).length = wordBefore text i := by
    rcases Nat.eq_zero_or_pos i with hi0 | hi0
    · subst hi0
      have hstart0 : start = 0 := by omega
      subst hstart0
      rw [hL0 rfl, List.nil_append, sliceOf_same]
      rfl
    · obtain ⟨j, rfl⟩ : ∃ j, i = j + 1 := ⟨i - 1, by omega⟩
      have hlt : start < j + 1 := hadjL (by omega)
      obtain ⟨k, hk⟩ : ∃ k, (optL ++ sliceOf text start (j + 1)).length = k + 1 :=
        ⟨(optL ++ sliceOf text start (j + 1)).length - 1, by rw [hUlen]; omega⟩
      rw [hk]
      show wordAt _ k = wordAt text j
      have hk2 : k = optL.length + (j - start) := by
        rw [hUlen] at hk
        omega
      have hlen2 : j - start < (sliceOf text start (j + 1)).length := by
        rw [sliceOf_length (by omega) (by omega)]
        omega
      rw [List.append_assoc, hk2,
        wordAt_append_right optL
          (sliceOf text start (j + 1) ++
            (sliceOf text (j + 1) (j + 1 + w.length) ++
              (sliceOf text (j + 1 + w.length) e ++ optR))) (j - start),
        wordAt_append_left
          (sliceOf text (j + 1) (j + 1 + w.length) ++
            (sliceOf text (j + 1 + w.length) e ++ optR)) hlen2,
        wordAt_slice (by omega) (by omega),
        show start + (j - start) = j from by omega]
  have hwAt2 : wordAt (optL ++ sliceOf text start i ++
      (sliceOf text i (i + w.length) ++ (sliceOf text (i + w.length) e ++ optR)))
      ((optL ++ sliceOf text start i).length + w.length) = wordAt text (i + w.length) := by
    rw [show optL ++ sliceOf text start i ++
        (sliceOf text i (i + w.length) ++ (sliceOf text (i + w.length) e ++ optR)) =
        (optL ++ sliceOf text start i ++ sliceOf text i (i + w.length)) ++
          (sliceOf text (i + w.length) e ++ optR) from by
      simp [List.append_assoc]]
    rw [show (optL ++ sliceOf text start i).length + w.length =
        (optL ++ sliceOf text start i ++ sliceOf text i (i + w.length)).length from by
      rw [List.length_append (optL ++ sliceOf text start i)
        (sliceOf text i (i + w.length)), hMlen]]
    rw [wordAt_append_start]
    by_cases hie : i + w.length < e
    · have hlen1 : (0 : ℕ) < (sliceOf text (i + w.length) e).length := by
        rw [sliceOf_length he2 (by omega)]
        omega
      rw [wordAt_append_left optR hlen1]
      have h2 := wordAt_slice (s := text) (a := i + w.length) (b := e) (k := 0) (by omega) he2
      rw [Nat.add_zero] at h2
      rw [h2]
    · have hieq : i + w.length = e := by omega
      have hiL : i + w.length = text.length := by
        by_contra hcon
        have h3 := hadjR hcon
        omega
      rw [show sliceOf text (i + w.length) e = [] from by rw [hieq]; exact sliceOf_same,
        hR0 (by omega), List.nil_append, wordAt_ge_length (by simp),
        wordAt_ge_length (by omega)]
  have hwBefore2 : wordBefore (optL ++ sliceOf text start i ++
      (sliceOf text i (i + w.length) ++ (sliceOf text (i + w.length) e ++ optR)))
      ((optL ++ sliceOf text start i).length + w.length) = wordBefore text (i + w.length) := by
    rcases Nat.eq_zero_or_pos w.length with hW | hW
    · rw [show (optL ++ sliceOf text start i).length + w.length =
          (optL ++ sliceOf text start i).length from by omega]
      conv_rhs => rw [show i + w.length = i from by omega]
      exact hwBefore
    · obtain ⟨j, hj⟩ : ∃ j, w.length = j + 1 := ⟨w.length - 1, by omega⟩
      rw [show (optL ++ sliceOf text start i).length + w.length =
          ((optL ++ sliceOf text start i).length + j) + 1 from by omega]
      show wordAt _ ((optL ++ sliceOf text start i).length + j) = wordBefore text (i + w.length)
      have hlen3 : j < (sliceOf text i (i + w.length)).length := by
        rw [hMlen]
        omega
      rw [wordAt_append_right (optL ++ sliceOf text start i)
          (sliceOf text i (i + w.length) ++ (sliceOf text (i + w.length) e ++ optR)) j,
        wordAt_append_left (sliceOf text (i + w.length) e ++ optR) hlen3,
        wordAt_slice (by omega) (by omega)]
      rw [show i + w.length = (i + j) + 1 from by omega]
      rfl
  rw [matchesAt, Bool.and_eq_true, Bool.and_eq_true]
  refine ⟨⟨?_, ?_⟩, ?_⟩
  · rw [decide_eq_true_eq]
    rw [show optL ++ sliceOf text start i ++
        (sliceOf text i (i + w.length) ++ (sliceOf text (i + w.length) e ++ optR)) =
        (optL ++ sliceOf text start i) ++
          (sliceOf text i (i + w.length) ++ (sliceOf text (i + w.length) e ++ optR)) from rfl]
    rw [sliceOf_append_left,
      take_length_append (v := sliceOf text (i + w.length) e ++ optR) hMlen]
    exact hs
  · rw [boundaryAt, hwBefore, hwAt]
    rw [boundaryAt] at hb1
    exact hb1
  · rw [boundaryAt, hwBefore2, hwAt2]
    rw [boundaryAt] at hb2
    exact hb2

theorem mkSnippet_contains {text w : List ℕ} {cc i : ℕ} (hcc : 1 ≤ cc)
    (hm : matchesAt text w i = true) :
    ∃ p, matchesAt (mkSnippet text w cc i).context w p = true := by
  have hiW : i + w.length ≤ text.length := matchesAt_le hm
  rw [matchesAt, Bool.and_eq_true, Bool.and_eq_true, decide_eq_true_eq] at hm
  obtain ⟨⟨hs, hb1⟩, hb2⟩ := hm
  refine ⟨((if 0 < i - cc then ELLIPSIS else []) ++ sliceOf text (i - cc) i).length, ?_⟩
  rw [mkSnippet_decomp text w cc i hiW]
  exact snippet_window_matches _ _ hs hb1 hb2 hiW (by omega) (by omega)
    (by omega) (fun h => by omega) (fun h => by omega)
    (fun h => by rw [if_neg (by omega)]) (fun h => by rw [if_neg (by omega)])

theorem finditerAux_matches {s w : List ℕ} :
    ∀ (fuel pos : ℕ), ∀ j ∈ finditerAux s w fuel pos, matchesAt s w j = true := by
  intro fuel
  induction fuel with
  | zero =>
    intro pos j hj
    simp [finditerAux] at hj
  | succ fuel ih =>
    intro pos j hj
    rw [finditerAux] at hj
    by_cases h1 : s.length < pos + w.length
    · rw [if_pos h1] at hj
      cases hj
    · rw [if_neg h1] at hj
      by_cases h2 : matchesAt s w pos = true
      · rw [if_pos h2] at hj
        rcases List.mem_cons.mp hj with rfl | hj2
        · exact h2
        · exact ih _ j hj2
      · rw [if_neg h2] at hj
        exact ih _ j hj

theorem snippetsLoop_mem {text w : List ℕ} {cc maxS : ℕ} :
    ∀ (ps : List ℕ) (acc : List Snip), ∀ sn ∈ snippetsLoop text w cc maxS ps acc,
      sn ∈ acc ∨ ∃ j ∈ ps, sn = mkSnippet text w cc j := by
  intro ps
  induction ps with
  | nil =>
    intro acc sn hsn
    exact Or.inl hsn
  | cons j ps ih =>
    intro acc sn hsn
    simp only [snippetsLoop] at hsn
    by_cases hb : maxS ≤ (acc ++ [mkSnippet text w cc j]).length
    · rw [if_pos hb] at hsn
      rcases List.mem_append.mp hsn with h | h
      · exact Or.inl h
      · exact Or.inr ⟨j, List.mem_cons_self j ps, by simpa using h⟩
    · rw [if_neg hb] at hsn
      rcases ih _ sn hsn with h | ⟨j2, hj2, he⟩
      · rcases List.mem_append.mp h with h2 | h2
        · exact Or.inl h2
        · exact Or.inr ⟨j, List.mem_cons_self j ps, by simpa using h2⟩
      · exact Or.inr ⟨j2, List.mem_cons_of_mem j hj2, he⟩

theorem snippetsLoop_length {text w : List ℕ} {cc maxS : ℕ} :
    ∀ (ps : List ℕ) (acc : List Snip), acc.length < maxS →
      (snippetsLoop text w cc maxS ps acc).length ≤ maxS := by
  intro ps
  induction ps with
  | nil =>
    intro acc h
    exact Nat.le_of_lt h
  | cons j ps ih =>
    intro acc h
    simp only [snippetsLoop]
    by_cases hb : maxS ≤ (acc ++ [mkSnippet text w cc j]).length
    · rw [if_pos hb, List.length_append]
      simp only [List.length_singleton]
      omega
    · rw [if_neg hb]
      refine ih _ ?_
      rw [List.length_append] at hb
      simp only [List.length_singleton] at hb
      rw [List.length_append]
      simp only [List.length_singleton]
      omega

/-- Counterexample to C5 as stated: with a configured maximum of `0`
snippets per call, `extract_snippets` still returns one snippet for a
matching text, because the loop appends a snippet before checking
`len(snippets) >= max_snippets` — so the count exceeds the configured
maximum. -/
theorem claim_C5_counterexample :
    (extract_snippets [97] [97] 50 0).length = 1 ∧
      ¬((extract_snippets [97] [97] 50 0).length ≤ 0) := by
  constructor
  · decide
  · decide

/-- C5 (amended): for every text, word, and configured maximum that is
at least 1, `extract_snippets` (with the pipeline's context window of 50
characters) returns at most the configured maximum number of snippets,
and every returned context contains the matched word as a
case-insensitive whole-word substring (a position where `matchesAt`
holds, i.e. the word occurs up to case with a `\b` boundary on both
sides).  For a configured maximum of 0 the extractor still returns one
snippet when the word occurs (see the counterexample). -/
theorem claim_C5_snippet_bound (text w : List ℕ) (maxS : ℕ) (hmax : 1 ≤ maxS) :
    (extract_snippets text w 50 maxS).length ≤ maxS ∧
      ∀ sn ∈ extract_snippets text w 50 maxS,
        ∃ p, matchesAt sn.context w p = true := by
  constructor
  · refine snippetsLoop_length (finditer text w) [] ?_
    simp only [List.length_nil]
    omega
  · intro sn hsn
    rcases snippetsLoop_mem (finditer text w) [] sn hsn with h | ⟨j, hj, he⟩
    · cases h
    · subst he
      exact mkSnippet_contains (by omega) (finditerAux_matches _ _ j hj)

/-- Witness for C5: on `"a b a"` with word `"a"` and maximum 5, at most
5 snippets are returned and each context contains the word. -/
theorem claim_C5_witness :
    1 ≤ 5 ∧ ((extract_snippets [97, 32, 98, 32, 97] [97] 50 5).length ≤ 5 ∧
      ∀ sn ∈ extract_snippets [97, 32, 98, 32, 97] [97] 50 5,
        ∃ p, matchesAt sn.context [97] p = true) :=
  ⟨by decide, claim_C5_snippet_bound [97, 32, 98, 32, 97] [97] 5 (by decide)⟩

theorem mkSnippet_position (text w : List ℕ) (cc i : ℕ) :
    (mkSnippet text w cc i).position = i := rfl

/-- C6: for every snippet produced by `extract_snippets`, the context is
the text slice from `position - context_chars` (clamped at 0) to
`min (length text) (position + length word + context_chars)`, with a
leading `"..."` exactly when the window start is not the document start
and a trailing `"..."` exactly when the window end is not the document
end; with neither, the context is the untouched slice. -/
theorem claim_C6_ellipsis (text w : List ℕ) (cc maxS : ℕ) :
    ∀ sn ∈ extract_snippets text w cc maxS,
      sn.context =
        (if sn.position - cc ≠ 0 then ELLIPSIS else []) ++
          sliceOf text (sn.position - cc)
            (min text.length (sn.position + w.length + cc)) ++
          (if min text.length (sn.position + w.length + cc) ≠ text.length
            then ELLIPSIS else []) := by
  intro sn hsn
  rcases snippetsLoop_mem (finditer text w) [] sn hsn with h | ⟨j, hj, he⟩
  · cases h
  · subst he
    rw [mkSnippet_position]
    simp only [mkSnippet]
    by_cases h1 : 0 < j - cc
    · by_cases h2 : min text.length (j + w.length + cc) < text.length
      · rw [if_pos h2, if_pos h1, if_pos (show j - cc ≠ 0 from by omega),
          if_pos (show min text.length (j + w.length + cc) ≠ text.length from by omega),
          List.append_assoc]
      · rw [if_neg h2, if_pos h1, if_pos (show j - cc ≠ 0 from by omega),
          if_neg (show ¬min text.length (j + w.length + cc) ≠ text.length from by
            have hmle := Nat.min_le_left text.length (j + w.length + cc)
            omega),
          List.append_nil]
    · by_cases h2 : min text.length (j + w.length + cc) < text.length
      · rw [if_pos h2, if_neg h1, if_neg (show ¬j - cc ≠ 0 from by omega),
          if_pos (show min text.length (j + w.length + cc) ≠ text.length from by omega),
          List.nil_append]
      · rw [if_neg h2, if_neg h1, if_neg (show ¬j - cc ≠ 0 from by omega),
          if_neg (show ¬min text.length (j + w.length + cc) ≠ text.length from by
            have hmle := Nat.min_le_left text.length (j + w.length + cc)
            omega),
          List.nil_append, List.append_nil]

/-- The text `"abc abc abc"` used to exercise the snippet extractor. -/
def demoSnipText : List ℕ := [97, 98, 99, 32, 97, 98, 99, 32, 97, 98, 99]

/-- The middle snippet `extract_snippets` builds on `demoSnipText` for
the word `"abc"` with a 2-character context window: context
`"...c abc a..."`, position 4. -/
def demoSnip : Snip := ⟨[46, 46, 46, 99, 32, 97, 98, 99, 32, 97, 46, 46, 46], 4⟩

/-- Witness for C6: the middle match of `"abc"` in `"abc abc abc"` with
a 2-character window is truncated on both sides and carries both
ellipsis markers. -/
theorem claim_C6_witness :
    demoSnip ∈ extract_snippets demoSnipText [97, 98, 99] 2 5 ∧
      demoSnip.context =
        (if demoSnip.position - 2 ≠ 0 then ELLIPSIS else []) ++
          sliceOf demoSnipText (demoSnip.position - 2)
            (min demoSnipText.length
              (demoSnip.position + ([97, 98, 99] : List ℕ).length + 2)) ++
          (if min demoSnipText.length
                (demoSnip.position + ([97, 98, 99] : List ℕ).length + 2)
              ≠ demoSnipText.length then ELLIPSIS else []) :=
  ⟨by decide, claim_C6_ellipsis demoSnipText [97, 98, 99] 2 5 demoSnip (by decide)⟩

/-- Whether `s` starts with `p` taken literally, character by
character — the reading of "starts with the (lowercased) prefix" in the
query-interface description. -/
def litStartsWith (p s : List ℕ) : Bool := decide (s.take p.length = p)

/-- `searchWords` as the specification words it: the stored words whose
form starts with the lowercased prefix taken literally (no wildcard
interpretation), ordered by `total_count` descending, capped at
`limit`. -/
def searchWordsSpec (db : DB) (pfx : List ℕ) (limit : ℕ) : List (List ℕ) :=
  (((db.word_stats.filter (fun st => litStartsWith (lowerStr pfx) st.word)).insertionSort
      statGeB).map (fun st => st.word)).take limit

theorem lowerChar_cases (c : ℕ) :
    (¬(65 ≤ c ∧ c ≤ 90) ∧ lowerChar c = c) ∨
      (65 ≤ c ∧ c ≤ 90 ∧ lowerChar c = c + 32) ∨
      lowerChar c ∈ ([257, 275, 299, 333, 363, 224, 232, 236, 242, 249,
        235, 239, 252, 230, 339] : List ℕ) := by
  by_cases h1 : 65 ≤ c ∧ c ≤ 90
  · exact Or.inr (Or.inl ⟨h1.1, h1.2, by unfold lowerChar; rw [if_pos h1]⟩)
  · by_cases hk : c = 256 ∨ c = 274 ∨ c = 298 ∨ c = 332 ∨ c = 362 ∨ c = 192 ∨
        c = 200 ∨ c = 204 ∨ c = 210 ∨ c = 217 ∨ c = 203 ∨ c = 207 ∨ c = 220 ∨
        c = 198 ∨ c = 338
    · refine Or.inr (Or.inr ?_)
      rcases hk with rfl|rfl|rfl|rfl|rfl|rfl|rfl|rfl|rfl|rfl|rfl|rfl|rfl|rfl|rfl <;> decide
    · push_neg at hk
      obtain ⟨k1, k2, k3, k4, k5, k6, k7, k8, k9, k10, k11, k12, k13, k14, k15⟩ := hk
      refine Or.inl ⟨h1, ?_⟩
      unfold lowerChar
      rw [if_neg h1, if_neg k1, if_neg k2, if_neg k3, if_neg k4, if_neg k5,
        if_neg k6, if_neg k7, if_neg k8, if_neg k9, if_neg k10, if_neg k11,
        if_neg k12, if_neg k13, if_neg k14, if_neg k15]

theorem lowerChar_no_wild {c : ℕ} (h37 : c ≠ 37) (h95 : c ≠ 95) :
    lowerChar c ≠ 37 ∧ lowerChar c ≠ 95 ∧ asciiFold (lowerChar c) = lowerChar c := by
  rcases lowerChar_cases c with ⟨h1, h2⟩ | ⟨h1, h2, h3⟩ | hmem
  · rw [h2]
    exact ⟨h37, h95, by rw [asciiFold, if_neg h1]⟩
  · rw [h3]
    refine ⟨by omega, by omega, ?_⟩
    rw [asciiFold, if_neg (by omega)]
  · simp only [List.mem_cons, List.not_mem_nil, or_false] at hmem
    rcases hmem with h|h|h|h|h|h|h|h|h|h|h|h|h|h|h <;> rw [h] <;> decide

theorem lowerStr_no_wild {pfx : List ℕ} (hp : ∀ c ∈ pfx, c ≠ 37 ∧ c ≠ 95) :
    ∀ c ∈ lowerStr pfx, c ≠ 37 ∧ c ≠ 95 ∧ asciiFold c = c := by
  intro c hc
  rw [lowerStr] at hc
  obtain ⟨d, hd, rfl⟩ := List.mem_map.mp hc
  exact lowerChar_no_wild (hp d hd).1 (hp d hd).2

theorem likeMatchAux_pctAll : ∀ (fuel : ℕ) (s : List ℕ), s.length + 2 ≤ fuel →
    likeMatchAux fuel [37] s = true := by
  intro fuel
  induction fuel with
  | zero =>
    intro s h
    omega
  | succ fuel ih =>
    intro s h
    rw [likeMatchAux.eq_def]
    simp only []
    rw [if_pos trivial]
    cases s with
    | nil =>
      have h1 : 1 ≤ fuel := by simpa using h
      obtain ⟨fuel2, rfl⟩ := Nat.exists_eq_add_of_le h1
      rw [show 1 + fuel2 = fuel2 + 1 from by omega]
      rfl
    | cons d s2 =>
      have h2 : likeMatchAux fuel [37] s2 = true := by
        refine ih s2 ?_
        simp only [List.length_cons] at h
        omega
      show (likeMatchAux fuel [] (d :: s2) || likeMatchAux fuel [37] s2) = true
      rw [h2, Bool.or_true]

theorem likeMatchAux_lit :
    ∀ (q s : List ℕ) (fuel : ℕ),
    (∀ c ∈ q, c ≠ 37 ∧ c ≠ 95 ∧ asciiFold c = c) →
    (∀ c ∈ s, asciiFold c = c) →
    q.length + s.length + 2 ≤ fuel →
    likeMatchAux fuel (q ++ [37]) s = decide (s.take q.length = q) := by
  intro q
  induction q with
  | nil =>
    intro s fuel _ _ hfuel
    rw [List.nil_append, likeMatchAux_pctAll fuel s (by simpa using hfuel)]
    simp
  | cons c q2 ih =>
    intro s fuel hq hs hfuel
    obtain ⟨fuel2, rfl⟩ : ∃ fuel2, fuel = fuel2 + 1 := by
      refine ⟨fuel - 1, ?_⟩
      omega
    have hc := hq c (List.mem_cons_self c q2)
    rw [List.cons_append, likeMatchAux.eq_def]
    simp only []
    rw [if_neg hc.1, if_neg hc.2.1]
    cases s with
    | nil => simp
    | cons d s2 =>
      have hd := hs d (List.mem_cons_self d s2)
      have hih : likeMatchAux fuel2 (q2 ++ [37]) s2 = decide (s2.take q2.length = q2) := by
        refine ih s2 fuel2 (fun e he => hq e (List.mem_cons_of_mem c he))
          (fun e he => hs e (List.mem_cons_of_mem d he)) ?_
        simp only [List.length_cons] at hfuel
        omega
      show (decide (asciiFold c = asciiFold d) && likeMatchAux fuel2 (q2 ++ [37]) s2) =
        decide ((d :: s2).take (c :: q2).length = c :: q2)
      rw [hc.2.2, hd, hih]
      simp only [List.length_cons, List.take_succ_cons]
      by_cases hcd : c = d
      · subst hcd
        by_cases ht : s2.take q2.length = q2
        · simp [ht]
        · simp [ht]
      · simp [hcd, Ne.symm hcd]

theorem likeMatch_lit (q s : List ℕ)
    (hq : ∀ c ∈ q, c ≠ 37 ∧ c ≠ 95 ∧ asciiFold c = c)
    (hs : ∀ c ∈ s, asciiFold c = c) :
    likeMatch (q ++ [37]) s = litStartsWith q s := by
  rw [likeMatch, litStartsWith]
  refine likeMatchAux_lit q s _ hq hs ?_
  simp only [List.length_append, List.length_cons, List.length_nil]
  omega

/-- Counterexample to C7 as stated: the prefix is passed into an SQL
`LIKE` pattern, so its wildcard characters are interpreted rather than
taken literally.  With the single stored word `"abc"` the prefix
`"a_c"` matches (`_` matching the `b`), yet `"abc"` does not start with
the literal string `"a_c"`. -/
theorem claim_C7_counterexample :
    search_words ⟨[], [], [⟨[97, 98, 99], 1, 1, 0⟩], []⟩ [97, 95, 99] 20 = [[97, 98, 99]] ∧
      litStartsWith (lowerStr [97, 95, 99]) [97, 98, 99] = false := by
  constructor
  · decide
  · decide

/-- C7 (amended): for every prefix containing no `LIKE` wildcard
character (`%`, code 37, or `_`, code 95) and every index whose stored
words consist of ASCII lowercase letters (as the pipeline guarantees
for stored word keys), `search_words` returns exactly the stored words
whose form starts with the lowercased prefix taken literally, sorted by
`total_count` descending and capped at `limit`.  For prefixes
containing wildcard characters the two disagree (see the
counterexample). -/
theorem claim_C7_search_literal (db : DB) (pfx : List ℕ) (limit : ℕ)
    (hp : ∀ c ∈ pfx, c ≠ 37 ∧ c ≠ 95)
    (hw : ∀ st ∈ db.word_stats, ∀ c ∈ st.word, 97 ≤ c ∧ c ≤ 122) :
    search_words db pfx limit = searchWordsSpec db pfx limit := by
  have hfilter : db.word_stats.filter (fun st => likeMatch (lowerStr pfx ++ [37]) st.word)
      = db.word_stats.filter (fun st => litStartsWith (lowerStr pfx) st.word) := by
    refine List.filter_congr ?_
    intro st hst
    refine likeMatch_lit (lowerStr pfx) st.word (lowerStr_no_wild hp) ?_
    intro c hc
    have hb := hw st hst c hc
    rw [asciiFold, if_neg (by omega)]
  rw [search_words, searchWordsSpec, hfilter]

/-- A small `word_stats` table with the pipeline's demo words, used to
exercise the search interface. -/
def searchDemoDB : DB :=
  ⟨[], [], [⟨[97, 114, 109, 97], 3, 2, 0⟩, ⟨[99, 97, 110, 111], 1, 1, 0⟩], []⟩

/-- Witness for C7 (amended): searching the demo index for the
wildcard-free prefix `"ar"` matches the literal reading. -/
theorem claim_C7_witness :
    ((∀ c ∈ ([97, 114] : List ℕ), c ≠ 37 ∧ c ≠ 95) ∧
      (∀ st ∈ searchDemoDB.word_stats, ∀ c ∈ st.word, 97 ≤ c ∧ c ≤ 122)) ∧
      search_words searchDemoDB [97, 114] 10 = searchWordsSpec searchDemoDB [97, 114] 10 :=
  ⟨⟨by decide, by decide⟩,
    claim_C7_search_literal searchDemoDB [97, 114] 10 (by decide) (by decide)⟩

/-- A prior good index containing one book row, used to exercise the
rebuild model. -/
def priorDemoDB : DB := ⟨[⟨"1", "Book 1", 1, 2, 1⟩], [], [], []⟩

/-- Counterexample to C1 as stated: `create_database` unlinks the prior
database file and commits a fresh empty schema before any data is
inserted, so a rebuild failing after schema creation (2 of 4 storage
steps) leaves readers an empty index — the prior good index is not
queryable any more. -/
theorem claim_C1_counterexample :
    visibleIndex (rebuildAfter ⟨some ⟨priorDemoDB, priorDemoDB⟩⟩ demoInput 2 5 2) =
        some emptyDB ∧
      some emptyDB ≠ some priorDemoDB := by
  constructor
  · decide
  · decide

/-- C1 (corrected): a rebuild interrupted after `k` of its 4 storage
steps (unlink, create schema, insert rows, final commit) never exposes
a half-written index — readers see no file (k = 1), a fresh empty
schema (k = 2, 3), or the complete new index (k = 4), because all row
inserts stay pending until the single final commit.  But the prior
good index does not remain queryable: it is discarded by the first
step, contrary to the specification. -/
theorem claim_C1_rebuild_visibility (prior : StoreState) (inp : PipelineInput)
    (minFreq maxS k : ℕ) (h1 : 1 ≤ k) (h2 : k ≤ 4) :
    visibleIndex (rebuildAfter prior inp minFreq maxS k) =
      if k = 1 then none
      else if k ≤ 3 then some emptyDB
      else some (run_analysis inp minFreq maxS) := by
  interval_cases k
  · rfl
  · rfl
  · rfl
  · rfl

/-- Witness for C1 (corrected): interrupting a rebuild of the demo
corpus over a prior index after schema creation leaves the empty index
visible. -/
theorem claim_C1_witness :
    (1 ≤ 2 ∧ 2 ≤ 4) ∧
      visibleIndex (rebuildAfter ⟨some ⟨priorDemoDB, priorDemoDB⟩⟩ demoInput 2 5 2) =
        (if 2 = 1 then (none : Option DB)
          else if 2 ≤ 3 then some emptyDB
          else some (run_analysis demoInput 2 5)) :=
  ⟨⟨by decide, by decide⟩,
    claim_C1_rebuild_visibility ⟨some ⟨priorDemoDB, priorDemoDB⟩⟩ demoInput 2 5 2
      (by decide) (by decide)⟩
